import Mathlib

/-!
Verification of the frontmatter tag-merge engine of `src/main.py`
(`TagGenerator`).  Text is modelled as `List Char`; every regular
expression of the source is translated into an explicit scanner with the
exact backtracking semantics of Python `re` (leftmost match, greedy
quantifiers with backtracking, alternation tried left to right).
Python's `\s` is modelled on its ASCII subset (space, tab, newline,
carriage return, vertical tab, form feed) and `str.lower` on ASCII
lowercasing, which agree with Python on all inputs considered here.
-/

namespace TagGen

/-- Text, as a list of characters. -/
abbrev Str := List Char

/-- Shorthand for string literals used in concrete statements. -/
def str (s : String) : Str := s.toList

/-- Python `\s` (ASCII subset): space, tab, newline, CR, vertical tab, form feed. -/
def isWS (c : Char) : Bool :=
  c == ' ' || c == '\t' || c == '\n' || c == '\r' || c == Char.ofNat 11 || c == Char.ofNat 12

/-- Concatenation of a list of strings. -/
def concatAll : List Str → Str
  | [] => []
  | x :: xs => x ++ concatAll xs

/-- `tag.lower().replace(" ", "-")` — the incoming-tag normalization of
`_process_single_file` (src/main.py line 136): lowercase, then replace each
space character by a hyphen. -/
def normalizeTag (t : Str) : Str :=
  (t.map Char.toLower).map (fun c => if c = ' ' then '-' else c)

/-- Python string comparison `a <= b`: lexicographic by code point,
a proper prefix precedes its extensions. -/
def lexLe : Str → Str → Bool
  | [], _ => true
  | _ :: _, [] => false
  | a :: as, b :: bs => if a < b then true else if b < a then false else lexLe as bs

/-- `lexLe` as a relation, for use with `List.insertionSort`. -/
def leTag (a b : Str) : Prop := lexLe a b = true

instance : DecidableRel leTag := fun a b => by
  unfold leTag; infer_instance

/-- Python `sorted(l)` on a list of strings. -/
def pySorted (l : List Str) : List Str := List.insertionSort leTag l

/-- Python `sorted(list(set(l)))`: the sorted list of the distinct elements.
(`set` iteration order is unspecified, but sorting makes the result
canonical: the sorted duplicate-free list.) -/
def sortedDedup (l : List Str) : List Str := pySorted l.dedup

/-- Lines 201–203 of src/main.py: `sorted(list(set(current_tags + new_tags)))`. -/
def mergeTags (existing incoming : List Str) : List Str :=
  sortedDedup (existing ++ incoming)

/-- Lines 233–234 of src/main.py (`_update_topics_file`):
`all_tags = list(set(self.topics + problem_tags)); all_tags.sort()`. -/
def updateTopics (topics problem_tags : List Str) : List Str :=
  sortedDedup (topics ++ problem_tags)

/-- `"\n".join([f"  - {tag}" for tag in tags])`. -/
def joinTags : List Str → Str
  | [] => []
  | [t] => ' ' :: ' ' :: '-' :: ' ' :: t
  | t :: ts => (' ' :: ' ' :: '-' :: ' ' :: t) ++ '\n' :: joinTags ts

/-- Maximal whitespace run: `wsSplit s = (w, v)` with `s = w ++ v`, `w` all
whitespace and `v` empty or starting with a non-whitespace character.
Models a greedy `\s*` whose continuation starts with a non-whitespace
literal. -/
def wsSplit : Str → Str × Str
  | [] => ([], [])
  | c :: rest =>
    if isWS c then
      let (w, v) := wsSplit rest
      (c :: w, v)
    else ([], c :: rest)

/-- Split at the first newline: `nlSplit s = some (b, a)` when
`s = b ++ '\n' :: a` and `b` contains no newline. -/
def nlSplit : Str → Option (Str × Str)
  | [] => none
  | c :: rest =>
    if c = '\n' then some ([], rest)
    else
      match nlSplit rest with
      | some (b, a) => some (c :: b, a)
      | none => none

/-- Split at the last newline: `lastNLSplit s = some (a, b)` when
`s = a ++ '\n' :: b` and `b` contains no newline.  Models the greedy
backtracking of `\s*\n`: the `\n` consumed is the last one of the
whitespace run. -/
def lastNLSplit : Str → Option (Str × Str)
  | [] => none
  | c :: rest =>
    match lastNLSplit rest with
    | some (a, b) => some (c :: a, b)
    | none => if c = '\n' then some ([], rest) else none

/-- First occurrence of `pat`: `splitAtSub pat s = some (pre, post)` when
`s = pre ++ pat ++ post` and no occurrence of `pat` starts earlier.
Models a lazy `(.*?)pat` scan. -/
def splitAtSub (pat : Str) : Str → Option (Str × Str)
  | [] => if pat.isEmpty then some ([], []) else none
  | c :: rest =>
    if pat.isPrefixOf (c :: rest) then some ([], (c :: rest).drop pat.length)
    else
      match splitAtSub pat rest with
      | some (pre, post) => some (c :: pre, post)
      | none => none

/-- Python `pat in s` (substring containment). -/
def hasSub (pat s : Str) : Bool := (splitAtSub pat s).isSome

/-- Line 184 of src/main.py: `re.match(r"---(.*?)---", content, re.DOTALL)`.
Anchored at the start; the lazy group ends at the first later `---`.
Returns `(frontmatter, rest-after-match)`. -/
def locate (content : Str) : Option (Str × Str) :=
  match content with
  | '-' :: '-' :: '-' :: rest =>
    match splitAtSub ['-', '-', '-'] rest with
    | some (fm, body) => some (fm, body)
    | none => none
  | _ => none

/-- The document text after the frontmatter match (the whole document when
there is no match). -/
def bodyOf (content : Str) : Str :=
  match locate content with
  | some (_, b) => b
  | none => content

/-- Backtracking for `\s*[^\n]+\n` after the `-` of a list item: try the
longest whitespace prefix (length `j`) first; `[^\n]+` then runs to the
first newline after it.  Returns `(consumed, rest)`. -/
def tryFrom (u : Str) : Nat → Option (Str × Str)
  | 0 =>
    match nlSplit u with
    | some (b, aft) => if b.isEmpty then none else some (u.take (b.length + 1), aft)
    | none => none
  | j + 1 =>
    match nlSplit (u.drop (j + 1)) with
    | some (b, aft) =>
      if b.isEmpty then tryFrom u j else some (u.take (j + 1 + b.length + 1), aft)
    | none => tryFrom u j

/-- Matches `\s*[^\n]+\n` (the part of a list item after its `-`),
with Python's greedy backtracking. -/
def itemAfterDash (u : Str) : Option (Str × Str) :=
  tryFrom u (wsSplit u).1.length

/-- `nlSplit` decomposes its input. -/
theorem nlSplit_eq {s b a : Str} (h : nlSplit s = some (b, a)) :
    s = b ++ '\n' :: a := by
  induction s generalizing b a with
  | nil => simp [nlSplit] at h
  | cons c rest ih =>
    by_cases hc : c = '\n'
    · subst hc
      simp [nlSplit] at h
      obtain ⟨hb, ha⟩ := h
      simp [← hb, ← ha]
    · simp only [nlSplit, if_neg hc] at h
      cases hrec : nlSplit rest with
      | none => rw [hrec] at h; exact absurd h (by simp)
      | some p =>
        obtain ⟨b', a'⟩ := p
        rw [hrec] at h
        simp at h
        obtain ⟨hb, ha⟩ := h
        rw [← hb, ← ha]
        simpa using ih hrec

/-- Bound used for fuel arguments: a successful `tryFrom` leaves a strictly
shorter rest (at least two characters are consumed). -/
theorem tryFrom_rest_len {u c aft : Str} {j : Nat} (h : tryFrom u j = some (c, aft)) :
    aft.length + 2 ≤ u.length := by
  induction j with
  | zero =>
    simp only [tryFrom] at h
    cases hn : nlSplit u with
    | none => rw [hn] at h; exact absurd h (by simp)
    | some p =>
      obtain ⟨b, a⟩ := p
      rw [hn] at h
      by_cases hb : b.isEmpty
      · simp [hb] at h
      · simp [hb] at h
        have hu := nlSplit_eq hn
        obtain ⟨hc, ha⟩ := h
        have ha' : aft.length = a.length := by simp [← ha]
        have hlen : u.length = b.length + (1 + a.length) := by
          rw [hu]; simp; omega
        have hbl : 1 ≤ b.length := by
          cases b with
          | nil => simp [List.isEmpty] at hb
          | cons x xs => simp
        omega
  | succ j ih =>
    simp only [tryFrom] at h
    cases hn : nlSplit (u.drop (j + 1)) with
    | none => rw [hn] at h; exact ih h
    | some p =>
      obtain ⟨b, a⟩ := p
      rw [hn] at h
      by_cases hb : b.isEmpty
      · simp [hb] at h; exact ih h
      · simp [hb] at h
        obtain ⟨hc, ha⟩ := h
        have ha' : aft.length = a.length := by simp [← ha]
        have hu := nlSplit_eq hn
        have hdl : (u.drop (j + 1)).length = b.length + (1 + a.length) := by
          rw [hu]; simp; omega
        have hdl2 : (u.drop (j + 1)).length ≤ u.length := by
          simp
        have hbl : 1 ≤ b.length := by
          cases b with
          | nil => simp [List.isEmpty] at hb
          | cons x xs => simp
        omega

theorem itemAfterDash_rest_len {u c aft : Str} (h : itemAfterDash u = some (c, aft)) :
    aft.length + 2 ≤ u.length := tryFrom_rest_len h

/-- The greedy star `(?:\s*-\s*[^\n]+\n)*` (fuelled; the wrapper
`itemsMatch` supplies sufficient fuel).  Returns `(consumed, rest)`. -/
def itemsMatchF : Nat → Str → Str × Str
  | 0, u => ([], u)
  | fuel + 1, u =>
    match (wsSplit u).2 with
    | '-' :: v2 =>
      match itemAfterDash v2 with
      | some (consumed, rest) =>
        let gr := itemsMatchF fuel rest
        ((wsSplit u).1 ++ '-' :: (consumed ++ gr.1), gr.2)
      | none => ([], u)
    | _ => ([], u)

/-- The star `(?:\s*-\s*[^\n]+\n)*` of the tags regex (line 189 of
src/main.py): match list items greedily, stop at the first failure. -/
def itemsMatch (u : Str) : Str × Str := itemsMatchF u.length u

/-- `"tags:"`. -/
def tagsKey : Str := ['t', 'a', 'g', 's', ':']

/-- Result of a successful match of the tags regex: `group(0)`, `group(1)`
(absent when the first alternative matched), and the text after the match. -/
structure TagsMatch where
  g0 : Str
  g1 : Option Str
  rest : Str
deriving Repr, DecidableEq

/-- First alternative of line 189: `tags:\s*\[\s*\]\s*\n` (no capture
group).  Each `\s*` before a literal is a maximal whitespace run; the final
`\s*\n` backtracks to the last newline of the run. -/
def alt1 (s : Str) : Option TagsMatch :=
  if tagsKey.isPrefixOf s then
    let r := s.drop 5
    match (wsSplit r).2 with
    | '[' :: r2 =>
      match (wsSplit r2).2 with
      | ']' :: r3 =>
        match lastNLSplit (wsSplit r3).1 with
        | some (a3, b3) =>
          some ⟨tagsKey ++ (wsSplit r).1 ++ '[' :: ((wsSplit r2).1 ++ ']' :: (a3 ++ ['\n'])),
                none, b3 ++ r3.drop (wsSplit r3).1.length⟩
        | none => none
      | _ => none
    | _ => none
  else none

/-- Second alternative of line 189: `tags:\s*\n((?:\s*-\s*[^\n]+\n)*)`.
`\s*\n` consumes up to the last newline of the whitespace run following
`tags:`; the capture group then matches items greedily. -/
def alt2 (s : Str) : Option TagsMatch :=
  if tagsKey.isPrefixOf s then
    let r := s.drop 5
    match lastNLSplit (wsSplit r).1 with
    | some (a, b) =>
      let gr := itemsMatch (b ++ r.drop (wsSplit r).1.length)
      some ⟨tagsKey ++ a ++ '\n' :: gr.1, some gr.1, gr.2⟩
    | none => none
  else none

/-- Line 189 of src/main.py:
`re.search(r"tags:\s*\[\s*\]\s*\n|tags:\s*\n((?:\s*-\s*[^\n]+\n)*)", frontmatter)`.
Leftmost match; at each position the first alternative is tried first. -/
def tagsSearch : Str → Option TagsMatch
  | [] => none
  | c :: rest =>
    match alt1 (c :: rest) with
    | some m => some m
    | none =>
      match alt2 (c :: rest) with
      | some m => some m
      | none => tagsSearch rest

theorem wsSplit_cons_ws {c : Char} (h : isWS c = true) (rest : Str) :
    wsSplit (c :: rest) = (c :: (wsSplit rest).1, (wsSplit rest).2) := by
  cases hw : wsSplit rest with
  | mk w v => simp [wsSplit, h, hw]

theorem wsSplit_cons_neg {c : Char} (h : isWS c = false) (rest : Str) :
    wsSplit (c :: rest) = ([], c :: rest) := by
  simp [wsSplit, h]

/-- `wsSplit` decomposes its input. -/
theorem wsSplit_append : ∀ s : Str, (wsSplit s).1 ++ (wsSplit s).2 = s := by
  intro s
  induction s with
  | nil => simp [wsSplit]
  | cons c rest ih =>
    by_cases h : isWS c
    · rw [wsSplit_cons_ws h]
      simpa using ih
    · rw [wsSplit_cons_neg (by simpa using h)]
      simp

theorem itemsMatchF_rest_len : ∀ (fuel : Nat) (u : Str),
    (itemsMatchF fuel u).2.length ≤ u.length := by
  intro fuel
  induction fuel with
  | zero => intro u; simp [itemsMatchF]
  | succ n ih =>
    intro u
    have hws : (wsSplit u).1.length + (wsSplit u).2.length = u.length := by
      conv_rhs => rw [← wsSplit_append u]
      simp
    simp only [itemsMatchF]
    split
    · rename_i v2 heq
      split
      · rename_i consumed rest had
        simp only
        have h1 : rest.length + 2 ≤ v2.length := itemAfterDash_rest_len had
        have h2 : (itemsMatchF n rest).2.length ≤ rest.length := ih rest
        have h3 : v2.length + 1 = (wsSplit u).2.length := by rw [heq]; simp
        omega
      · simp
    · simp

/-- `lastNLSplit` decomposes its input. -/
theorem lastNLSplit_eq {s a b : Str} (h : lastNLSplit s = some (a, b)) :
    s = a ++ '\n' :: b := by
  induction s generalizing a b with
  | nil => simp [lastNLSplit] at h
  | cons c rest ih =>
    simp only [lastNLSplit] at h
    cases hr : lastNLSplit rest with
    | some p =>
      obtain ⟨a', b'⟩ := p
      rw [hr] at h
      simp only [Option.some.injEq, Prod.mk.injEq] at h
      obtain ⟨h1, h2⟩ := h
      subst h1; subst h2
      have := ih hr
      rw [this]
      simp
    | none =>
      rw [hr] at h
      by_cases hc : c = '\n'
      · simp only [if_pos hc, Option.some.injEq, Prod.mk.injEq] at h
        obtain ⟨h1, h2⟩ := h
        subst h1; subst h2
        simp [hc]
      · simp [hc] at h

/-- A successful `alt2` consumes at least `tags:` and a newline. -/
theorem alt2_rest_len {s : Str} {m : TagsMatch} (h : alt2 s = some m) :
    m.rest.length + 6 ≤ s.length := by
  unfold alt2 at h
  by_cases hp : tagsKey.isPrefixOf s
  · rw [if_pos hp] at h
    have hlen5 : 5 ≤ s.length := by
      have := List.IsPrefix.length_le (List.isPrefixOf_iff_prefix.mp hp)
      simpa [tagsKey] using this
    cases hl : lastNLSplit (wsSplit (s.drop 5)).1 with
    | none => simp only [hl] at h; exact absurd h (by simp)
    | some p =>
      obtain ⟨a, b⟩ := p
      simp only [hl, Option.some.injEq] at h
      subst h
      simp only
      have h1 : (itemsMatch (b ++ (s.drop 5).drop (wsSplit (s.drop 5)).1.length)).2.length ≤
          (b ++ (s.drop 5).drop (wsSplit (s.drop 5)).1.length).length :=
        itemsMatchF_rest_len _ _
      have h2 : b.length + 1 ≤ (wsSplit (s.drop 5)).1.length := by
        have := lastNLSplit_eq hl
        have : (wsSplit (s.drop 5)).1.length = a.length + (1 + b.length) := by
          rw [this]; simp; omega
        omega
      have h3 : (wsSplit (s.drop 5)).1.length ≤ (s.drop 5).length := by
        have := wsSplit_append (s.drop 5)
        have hx : (wsSplit (s.drop 5)).1.length + (wsSplit (s.drop 5)).2.length =
            (s.drop 5).length := by
          conv_rhs => rw [← this]
          simp
        omega
      have h4 : (s.drop 5).length = s.length - 5 := by simp
      have h5 : ((s.drop 5).drop (wsSplit (s.drop 5)).1.length).length =
          (s.drop 5).length - (wsSplit (s.drop 5)).1.length := by
        simp [Nat.sub_sub]
      simp only [List.length_append] at h1
      omega
  · rw [if_neg hp] at h
    exact absurd h (by simp)

/-- Fuelled scanner for
`re.sub(r"tags:\s*\n((?:\s*-\s*[^\n]+\n)*)", repl, frontmatter)`
(line 205 of src/main.py): every non-overlapping match of the second
alternative is replaced by `repl` (the replacement contains no backslash,
so Python's template expansion is the identity on it). -/
def subTagsF : Nat → Str → Str → Str
  | 0, fm, _ => fm
  | fuel + 1, fm, repl =>
    match fm with
    | [] => []
    | c :: rest =>
      match alt2 (c :: rest) with
      | some m => repl ++ subTagsF fuel m.rest repl
      | none => c :: subTagsF fuel rest repl

/-- Line 205 of src/main.py (see `subTagsF`). -/
def subTags (fm repl : Str) : Str := subTagsF fm.length fm repl

/-- Fuelled scanner for Python `s.replace(old, new)` with non-empty `old`:
replace every non-overlapping occurrence, scanning left to right. -/
def replaceLoopF : Nat → Str → Str → Str → Str
  | 0, s, _, _ => s
  | _ + 1, [], _, _ => []
  | fuel + 1, c :: rest, old, new =>
    if old.isPrefixOf (c :: rest) then
      new ++ replaceLoopF fuel (rest.drop (old.length - 1)) old new
    else c :: replaceLoopF fuel rest old new

/-- Python `s.replace(old, new)`.  For `old = ""` Python inserts `new`
before every character and at the end. -/
def strReplace (s old new : Str) : Str :=
  match old with
  | [] => new ++ concatAll (s.map (fun c => c :: new))
  | _ :: _ => replaceLoopF s.length s old new

/-- Python `s.split("\n")`: pieces between newlines, empty pieces kept. -/
def pySplitNL : Str → List Str
  | [] => [[]]
  | c :: rest =>
    if c = '\n' then [] :: pySplitNL rest
    else
      match pySplitNL rest with
      | p :: ps => (c :: p) :: ps
      | [] => [[c]]

/-- Remove trailing whitespace. -/
def dropTrailingWS (s : Str) : Str := (s.reverse.dropWhile isWS).reverse

/-- Python `s.strip()` (ASCII whitespace). -/
def pyStrip (s : Str) : Str := dropTrailingWS (s.dropWhile isWS)

/-- Python `s.strip('-')`: remove leading and trailing hyphens. -/
def stripDashes (s : Str) : Str :=
  ((s.dropWhile (fun c => c == '-')).reverse.dropWhile (fun c => c == '-')).reverse

/-- Lines 198–199 of src/main.py:
`current_tags = tags_match.group(1).strip().split("\n")` followed by
`[tag.strip().strip('-').strip() for tag in current_tags if tag.strip()]`. -/
def parseTags (g : Str) : List Str :=
  ((pySplitNL (pyStrip g)).filter (fun p => !(pyStrip p).isEmpty)).map
    (fun p => pyStrip (stripDashes (pyStrip p)))

/-- Line 209 of src/main.py: `re.search(r"tags:\s*\n", frontmatter)`
viewed as a Boolean (a match exists somewhere). -/
def emptyTagsAt (s : Str) : Bool :=
  tagsKey.isPrefixOf s && (lastNLSplit (wsSplit (s.drop 5)).1).isSome

def hasEmptyTags : Str → Bool
  | [] => false
  | c :: rest => emptyTagsAt (c :: rest) || hasEmptyTags rest

/-- `"---"`. -/
def dash3 : Str := ['-', '-', '-']

/-- Lines 179–230 of src/main.py, `_update_frontmatter_tags`, as a pure
function from the file's text and the (already normalized) incoming tag
list to the new text.  `none` models the uncaught `AttributeError` raised
at line 198 when the tags regex matched its first alternative (so
`group(1)` is `None`) but `group(0)` does not contain the literal `"[]"`:
the function then raises before any write. -/
def updateFrontmatterTags (content : Str) (new_tags : List Str) : Option Str :=
  match locate content with
  | some (fm, _) =>
    match tagsSearch fm with
    | some m =>
      if hasSub ['[', ']'] m.g0 then
        -- line 194–195: replace the literal "tags: []"
        let uts := joinTags (pySorted new_tags)
        let fm' := strReplace fm (tagsKey ++ [' ', '[', ']']) (tagsKey ++ '\n' :: uts)
        some (strReplace content fm fm')
      else
        match m.g1 with
        | none => none
        | some g =>
          -- lines 197–205: merge with existing tags, re.sub the list region
          let merged := mergeTags (parseTags g) new_tags
          let fm' := subTags fm (tagsKey ++ '\n' :: (joinTags merged ++ ['\n']))
          some (strReplace content fm fm')
    | none =>
      let uts := joinTags (pySorted new_tags)
      if hasEmptyTags fm then
        -- lines 209–213: bare "tags:\n" with no items
        let fm' := strReplace fm (tagsKey ++ ['\n']) (tagsKey ++ '\n' :: (uts ++ ['\n']))
        some (strReplace content fm fm')
      else
        -- lines 215–218: no tags section at all
        let fm' := fm ++ tagsKey ++ '\n' :: (uts ++ ['\n'])
        some (strReplace content fm fm')
  | none =>
    -- lines 223–230: no frontmatter; prepend a synthesized header
    let uts := joinTags (pySorted new_tags)
    some ((dash3 ++ '\n' :: (tagsKey ++ '\n' :: (uts ++ '\n' :: (dash3 ++ ['\n'])))) ++ content)

/-- One run of the per-document locate→parse→merge→rewrite pipeline as a
document transformation: on the exception path (`none`) the file is left
unchanged. -/
def applyPipeline (content : Str) (new_tags : List Str) : Str :=
  (updateFrontmatterTags content new_tags).getD content

/-- The tag list currently recorded in a document, read back the way the
code itself reads it (locate, search, parse the capture group). -/
def extractWrittenTags (content : Str) : Option (List Str) :=
  match locate content with
  | some (fm, _) =>
    match tagsSearch fm with
    | some m =>
      match m.g1 with
      | some g => some (parseTags g)
      | none => none
    | none => none
  | none => none

/-- The "```python" opener of line 119's `re.findall(r"```python(.*?)```", ...)`. -/
def codeOpen : Str := ("```python").toList

/-- The "```" closer. -/
def codeFence : Str := ("```").toList

/-- Fuelled scanner for
`re.findall(r"```python(.*?)```", file_contents, re.DOTALL)`
(line 119 of src/main.py): non-overlapping matches scanning left to right,
the lazy group ending at the first closing fence; returns the captured
groups. -/
def pyFindBlocksF : Nat → Str → List Str
  | 0, _ => []
  | fuel + 1, s =>
    match s with
    | [] => []
    | _ :: rest =>
      if codeOpen.isPrefixOf s then
        match splitAtSub codeFence (s.drop 9) with
        | some (g, after) => g :: pyFindBlocksF fuel after
        | none => pyFindBlocksF fuel rest
      else pyFindBlocksF fuel rest

def pyFindBlocks (s : Str) : List Str := pyFindBlocksF s.length s

/-- Lines 118–122 of src/main.py: concatenate each stripped Python code
block followed by a newline, then strip the whole. -/
def extractSolution (content : Str) : Str :=
  pyStrip (concatAll ((pyFindBlocks content).map (fun b => pyStrip b ++ ['\n'])))

/-- Outcomes of the effectful steps of `_process_single_file`, supplied by
the environment: the file read, the suggestion-service call (`_api_call`),
the JSON decode of its response (`json.loads` + `.get("tags", [])`), and
the three writes (document, processed-files log, topics file).  `Except`
errors and `false` write outcomes model raised exceptions. -/
structure FileEnv where
  contents : Except Unit Str
  apiResp : Except Unit Str
  parsedTags : Except Unit (List Str)
  writeOk : Bool
  saveOk : Bool
  topicsWriteOk : Bool

/-- The mutable state of a `TagGenerator` instance that survives across
documents: the in-memory processed-files set and the topics vocabulary. -/
structure AppState where
  processed : List Str
  topics : List Str
deriving Repr, DecidableEq

/-- `self.processed_files.add(filename)`. -/
def insertProcessed (name : Str) (l : List Str) : List Str :=
  if name ∈ l then l else l ++ [name]

/-- Lines 109–148 of src/main.py, `_process_single_file`: the whole body
runs inside `try`, any exception is converted to the `False` outcome.
Returns `(success, new state)`.  The in-memory processed set is updated
before the processed-log write (line 39), and the in-memory topics list is
updated before the topics-file open (line 241), so a failure of either
write still leaves the in-memory update behind. -/
def processSingleFile (env : FileEnv) (name : Str) (st : AppState) : Bool × AppState :=
  match env.contents with
  | .error _ => (false, st)
  | .ok content =>
    if (extractSolution content).isEmpty then (false, st)
    else
      match env.apiResp with
      | .error _ => (false, st)
      | .ok _ =>
        match env.parsedTags with
        | .error _ => (false, st)
        | .ok rawTags =>
          let tags := rawTags.map normalizeTag
          match updateFrontmatterTags content tags with
          | none => (false, st)
          | some _ =>
            if !env.writeOk then (false, st)
            else
              let st1 : AppState := ⟨insertProcessed name st.processed, st.topics⟩
              if !env.saveOk then (false, st1)
              else
                let st2 : AppState := ⟨st1.processed, updateTopics st1.topics tags⟩
                if !env.topicsWriteOk then (false, st2)
                else (true, st2)

/-- Lines 150–177 of src/main.py, `process_all_files`: iterate over the
documents, count successes and failures, never abort.
Returns `(successful, failed, final state)`. -/
def processAllFiles : List (Str × FileEnv) → AppState → Nat × Nat × AppState
  | [], st => (0, 0, st)
  | (name, env) :: rest, st =>
    let r := processSingleFile env name st
    let t := processAllFiles rest r.2
    if r.1 then (t.1 + 1, t.2.1, t.2.2) else (t.1, t.2.1 + 1, t.2.2)

/-! ### The order used by `sorted` -/

theorem lexLe_total : ∀ a b : Str, lexLe a b = true ∨ lexLe b a = true
  | [], _ => Or.inl rfl
  | _ :: _, [] => Or.inr rfl
  | a :: as, b :: bs => by
    rcases lt_trichotomy a b with h | h | h
    · left; simp [lexLe, h]
    · subst h
      rcases lexLe_total as bs with h2 | h2
      · left; simpa [lexLe] using h2
      · right; simpa [lexLe] using h2
    · right; simp [lexLe, h]

theorem lexLe_trans : ∀ a b c : Str,
    lexLe a b = true → lexLe b c = true → lexLe a c = true
  | [], _, _, _, _ => rfl
  | _ :: _, [], _, h, _ => by simp [lexLe] at h
  | _ :: _, _ :: _, [], _, h => by simp [lexLe] at h
  | a :: as, b :: bs, c :: cs, h1, h2 => by
    simp only [lexLe] at h1 h2 ⊢
    by_cases hab : a < b
    · by_cases hbc : b < c
      · simp [lt_trans hab hbc]
      · by_cases hcb : c < b
        · simp [hbc, hcb] at h2
        · have : b = c := le_antisymm (not_lt.mp hcb) (not_lt.mp hbc)
          subst this
          simp [hab]
    · by_cases hba : b < a
      · simp [hab, hba] at h1
      · have : a = b := le_antisymm (not_lt.mp hba) (not_lt.mp hab)
        subst this
        simp only [lt_self_iff_false, if_false] at h1
        by_cases hac : a < c
        · simp [hac]
        · by_cases hca : c < a
          · simp [hac, hca] at h2
          · simp only [hac, hca, if_false] at h2 ⊢
            exact lexLe_trans as bs cs h1 h2

theorem lexLe_antisymm : ∀ a b : Str,
    lexLe a b = true → lexLe b a = true → a = b
  | [], [], _, _ => rfl
  | [], _ :: _, _, h => by simp [lexLe] at h
  | _ :: _, [], h, _ => by simp [lexLe] at h
  | a :: as, b :: bs, h1, h2 => by
    simp only [lexLe] at h1 h2
    by_cases hab : a < b
    · simp [hab, asymm hab] at h2
    · by_cases hba : b < a
      · simp [hab, hba] at h1
      · have hcc : a = b := le_antisymm (not_lt.mp hba) (not_lt.mp hab)
        subst hcc
        simp only [lt_self_iff_false, if_false] at h1 h2
        rw [lexLe_antisymm as bs h1 h2]

instance : IsTotal Str leTag := ⟨fun a b => lexLe_total a b⟩

instance : IsTrans Str leTag := ⟨fun a b c => lexLe_trans a b c⟩

instance : IsAntisymm Str leTag := ⟨fun a b => lexLe_antisymm a b⟩

theorem mem_pySorted {t : Str} {l : List Str} : t ∈ pySorted l ↔ t ∈ l := by
  unfold pySorted
  exact List.mem_insertionSort leTag

theorem pySorted_sorted (l : List Str) : (pySorted l).Sorted leTag :=
  List.sorted_insertionSort leTag l

theorem pySorted_nodup {l : List Str} (h : l.Nodup) : (pySorted l).Nodup :=
  (List.perm_insertionSort leTag l).nodup_iff.mpr h

theorem mem_sortedDedup {t : Str} {l : List Str} : t ∈ sortedDedup l ↔ t ∈ l := by
  unfold sortedDedup
  rw [mem_pySorted, List.mem_dedup]

theorem sortedDedup_sorted (l : List Str) : (sortedDedup l).Sorted leTag :=
  pySorted_sorted _

theorem sortedDedup_nodup (l : List Str) : (sortedDedup l).Nodup :=
  pySorted_nodup (List.nodup_dedup l)

/-- Two deduplicated sorted lists with the same members are equal. -/
theorem sortedDedup_ext {a b : List Str} (h : ∀ t, t ∈ a ↔ t ∈ b) :
    sortedDedup a = sortedDedup b := by
  apply List.eq_of_perm_of_sorted _ (sortedDedup_sorted a) (sortedDedup_sorted b)
  apply (List.perm_ext_iff_of_nodup (sortedDedup_nodup a) (sortedDedup_nodup b)).mpr
  intro t
  rw [mem_sortedDedup, mem_sortedDedup]
  exact h t

/-- A sorted duplicate-free list is its own `sortedDedup`. -/
theorem sortedDedup_eq_self {l : List Str} (hs : l.Sorted leTag) (hn : l.Nodup) :
    sortedDedup l = l := by
  unfold sortedDedup pySorted
  rw [List.dedup_eq_self.mpr hn]
  exact List.Sorted.insertionSort_eq hs

/-- `pySorted` of a duplicate-free list agrees with `sortedDedup`. -/
theorem pySorted_eq_sortedDedup {l : List Str} (hn : l.Nodup) :
    pySorted l = sortedDedup l := by
  unfold sortedDedup
  rw [List.dedup_eq_self.mpr hn]

/-! ### C3: normalization -/

/-- C3, counterexample: the claim says `"Binary  Search"` (two internal
spaces) normalizes to `"binary-search"`; the code's normalization
(`tag.lower().replace(" ", "-")`, line 136) turns each space into a
hyphen and strips nothing, producing `"binary--search"`. -/
theorem normalizeTag_double_space_counterexample :
    normalizeTag (str "Binary  Search") = str "binary--search" ∧
    str "binary--search" ≠ str "binary-search" := by
  constructor
  · decide
  · decide

/-- C3, amended: normalization lowercases and replaces each single space
character by a hyphen (runs are not collapsed and hyphens are not
stripped).  `"Binary Search"` normalizes to `"binary-search"`,
`"Binary  Search"` to `"binary--search"`, and re-merging an
already-present tag produces no duplicate. -/
theorem normalizeTag_per_char :
    normalizeTag (str "Binary Search") = str "binary-search" ∧
    normalizeTag (str "Binary  Search") = str "binary--search" ∧
    mergeTags [str "array", str "binary-search"] [str "binary-search"] =
      [str "array", str "binary-search"] ∧
    (∀ (E : List Str) (t : Str), t ∈ E → mergeTags E [t] = sortedDedup E) := by
  refine ⟨by decide, by decide, by decide, ?_⟩
  intro E t ht
  unfold mergeTags
  apply sortedDedup_ext
  intro u
  constructor
  · intro hu
    rcases List.mem_append.mp hu with h | h
    · exact h
    · simp at h
      subst h
      exact ht
  · intro hu
    exact List.mem_append.mpr (Or.inl hu)

/-! ### C4: merge is the sorted deduplicated union -/

/-- C4: merging existing with incoming tags yields exactly their
deduplicated union, serialized in ascending lexicographic order; in
particular the two concrete examples of the specification. -/
theorem mergeTags_union_sorted :
    (∀ (E I : List Str) (t : Str), t ∈ mergeTags E I ↔ (t ∈ E ∨ t ∈ I)) ∧
    (∀ E I : List Str, (mergeTags E I).Sorted leTag ∧ (mergeTags E I).Nodup) ∧
    mergeTags [str "array", str "dp"] [str "dp", str "two-pointers"] =
      [str "array", str "dp", str "two-pointers"] ∧
    mergeTags [str "array", str "hash-map"] [str "hash-map", str "two-sum"] =
      [str "array", str "hash-map", str "two-sum"] := by
  refine ⟨?_, ?_, by decide, by decide⟩
  · intro E I t
    unfold mergeTags
    rw [mem_sortedDedup]
    exact List.mem_append
  · intro E I
    exact ⟨sortedDedup_sorted _, sortedDedup_nodup _⟩

/-! ### C7: vocabulary update -/

/-- The vocabulary evolution over a sequence of processed documents:
each document's accepted tags are folded in with `_update_topics_file`. -/
def foldVocab (runs : List (List Str)) (topics : List Str) : List Str :=
  runs.foldl (fun v p => updateTopics v p) topics

/-- C7: `_update_topics_file` computes exactly the union of the old
vocabulary and the accepted tags, serialized sorted ascending, and over
any sequence of processed documents the vocabulary only grows: no entry
is ever removed. -/
theorem updateTopics_union_monotone :
    (∀ (V P : List Str) (t : Str), t ∈ updateTopics V P ↔ (t ∈ V ∨ t ∈ P)) ∧
    (∀ V P : List Str, (updateTopics V P).Sorted leTag ∧ (updateTopics V P).Nodup) ∧
    (∀ (runs : List (List Str)) (V : List Str) (t : Str),
      t ∈ V → t ∈ foldVocab runs V) := by
  refine ⟨?_, ?_, ?_⟩
  · intro V P t
    unfold updateTopics
    rw [mem_sortedDedup]
    exact List.mem_append
  · intro V P
    exact ⟨sortedDedup_sorted _, sortedDedup_nodup _⟩
  · intro runs
    induction runs with
    | nil => intro V t ht; simpa [foldVocab] using ht
    | cons p rest ih =>
      intro V t ht
      have : t ∈ updateTopics V p := by
        unfold updateTopics
        rw [mem_sortedDedup]
        exact List.mem_append.mpr (Or.inl ht)
      simpa [foldVocab] using ih (updateTopics V p) t this

/-! ### C9: the TagList invariant of written lists -/

/-- C9, counterexample: with incoming list `["a", "a"]` (the API response
may repeat a tag, and line 136 never deduplicates) and a `tags: []`
header, line 194 writes `sorted(new_tags)` without deduplication: the
document ends up with the duplicated list `["a", "a"]`. -/
theorem written_tags_duplicate_counterexample :
    updateFrontmatterTags (str "---\ntags: []\n---\nbody\n") [str "a", str "a"] =
      some (str "---\ntags:\n  - a\n  - a\n---\nbody\n") ∧
    extractWrittenTags (str "---\ntags:\n  - a\n  - a\n---\nbody\n") =
      some [str "a", str "a"] ∧
    ¬ ([str "a", str "a"] : List Str).Nodup := by
  refine ⟨by decide, by decide, by decide⟩

/-- C9, amended: the two lists the rewriter serializes are
`sorted(new_tags)` (empty/absent branches) and
`sorted(list(set(current + new)))` (populated branch).  Both are sorted
ascending; the merged list is always duplicate-free, the plain sorted
list only when the incoming list is; lowercase/non-emptiness hold for the
elements exactly when they hold for the corresponding inputs. -/
theorem written_tags_invariant_conditional :
    (∀ tags : List Str, tags.Nodup → (pySorted tags).Nodup) ∧
    (∀ tags : List Str, (pySorted tags).Sorted leTag ∧ ∀ t, t ∈ pySorted tags ↔ t ∈ tags) ∧
    (∀ cur new : List Str, (mergeTags cur new).Nodup ∧ (mergeTags cur new).Sorted leTag ∧
      (∀ t, t ∈ mergeTags cur new ↔ (t ∈ cur ∨ t ∈ new))) ∧
    (∀ tags : List Str, (∀ t ∈ tags, t ≠ [] ∧ t.map Char.toLower = t) →
      ∀ t ∈ pySorted tags, t ≠ [] ∧ t.map Char.toLower = t) := by
  refine ⟨?_, ?_, ?_, ?_⟩
  · intro tags h; exact pySorted_nodup h
  · intro tags
    exact ⟨pySorted_sorted _, fun t => mem_pySorted⟩
  · intro cur new
    refine ⟨sortedDedup_nodup _, sortedDedup_sorted _, ?_⟩
    intro t
    unfold mergeTags
    rw [mem_sortedDedup]
    exact List.mem_append
  · intro tags h t ht
    exact h t (mem_pySorted.mp ht)

/-! ### C10: the `tags: [ ]` crash -/

/-- Environment for the crash scenario: the read succeeds, the suggestion
service and its decoding succeed, all writes would succeed. -/
def crashEnv : FileEnv :=
  ⟨.ok (str "---\ntags: [ ]\n---\n```python\nx = 1\n```\n"),
   .ok (str "response"), .ok [str "dp"], true, true, true⟩

/-- C10: on a header containing `tags: [ ]` (whitespace between the
brackets) the tags regex matches its inline-empty alternative, `group(0)`
is `"tags: [ ]\n"` which does not contain the literal `"[]"`, so line 198
dereferences the absent `group(1)` and raises; the exception is caught at
the per-document boundary, the document is reported as a failure, and no
state changes (the file write at line 221 is never reached). -/
theorem inline_empty_space_crash :
    updateFrontmatterTags (str "---\ntags: [ ]\n---\n```python\nx = 1\n```\n")
      [str "dp"] = none ∧
    processSingleFile crashEnv (str "f.md") ⟨[], []⟩ = (false, ⟨[], []⟩) := by
  constructor
  · decide
  · decide

/-! ### C6: header synthesis -/

/-- C6, counterexample: `"---a---b"` has no delimiter lines (no line of
the document equals `---`), yet the anchored regex of line 184 matches it
(`---` need not be a full line), so instead of prepending the synthesized
header the code appends a tags section inside the spurious "frontmatter"
`"a"`: the output does not begin with `---\ntags:\n  - array\n---\n`. -/
theorem no_delimiter_lines_counterexample :
    (∀ line ∈ pySplitNL (str "---a---b"), line ≠ dash3) ∧
    updateFrontmatterTags (str "---a---b") [str "array"] =
      some (str "---atags:\n  - array\n---b") ∧
    ¬ (str "---\ntags:\n  - array\n---\n").isPrefixOf
        (str "---atags:\n  - array\n---b") := by
  refine ⟨by decide, by decide, by decide⟩

/-- C6, amended: for every document on which the frontmatter pattern does
not match (in particular any document that does not start with `---`),
rewriting with incoming tags `{"array"}` prepends exactly the synthesized
header `---\ntags:\n  - array\n---\n` and leaves the original content
unchanged after it. -/
theorem synthesized_header_when_no_match (D : Str) (h : locate D = none) :
    updateFrontmatterTags D [str "array"] =
      some (str "---\ntags:\n  - array\n---\n" ++ D) := by
  simp only [updateFrontmatterTags, h]
  congr 1

theorem synthesized_header_when_no_match_witness :
    locate (str "hello") = none ∧
    updateFrontmatterTags (str "hello") [str "array"] =
      some (str "---\ntags:\n  - array\n---\n" ++ str "hello") :=
  ⟨by decide, synthesized_header_when_no_match (str "hello") (by decide)⟩

/-! ### C8: per-document error isolation -/

/-- Environment in which everything up to and including the document
rewrite and the processed-log write succeeds, but opening the topics file
(line 243) raises. -/
def topicsWriteFailEnv : FileEnv :=
  ⟨.ok (str "```python\nx = 1\n```"), .ok (str "response"), .ok [str "dp"],
   true, true, false⟩

/-- C8, counterexample: when the topics-file write fails after a
successful document rewrite, `_process_single_file` reports failure, yet
`_save_processed_file` already ran: the failed document *is* in the
processed set, contradicting the claim that a failed document is never
added to it. -/
theorem failed_document_in_processed_set_counterexample :
    (processSingleFile topicsWriteFailEnv (str "f.md") ⟨[], []⟩).1 = false ∧
    str "f.md" ∈ (processSingleFile topicsWriteFailEnv (str "f.md") ⟨[], []⟩).2.processed := by
  constructor
  · decide
  · decide

/-- C8, amended: every per-document error is converted into a Boolean
failure outcome and the batch always continues (successes and failures of
`process_all_files` add up to the number of documents); a document whose
pipeline fails before the processed-log write leaves the state untouched;
but a failure while persisting the processed log or the topics file can
leave the failed document marked processed (see the counterexample). -/
theorem per_document_error_isolation :
    (∀ (files : List (Str × FileEnv)) (st : AppState),
      (processAllFiles files st).1 + (processAllFiles files st).2.1 = files.length) ∧
    (∀ (env : FileEnv) (name : Str) (st : AppState),
      (processSingleFile env name st).1 = false → env.saveOk = true →
      env.topicsWriteOk = true → (processSingleFile env name st).2 = st) := by
  constructor
  · intro files
    induction files with
    | nil => intro st; simp [processAllFiles]
    | cons fe rest ih =>
      intro st
      obtain ⟨name, env⟩ := fe
      simp only [processAllFiles]
      by_cases h : (processSingleFile env name st).1 = true
      · simp only [h, if_true, List.length_cons]
        have := ih (processSingleFile env name st).2
        omega
      · simp only [Bool.not_eq_true] at h
        simp only [h, Bool.false_eq_true, if_false, List.length_cons]
        have := ih (processSingleFile env name st).2
        omega
  · intro env name st hf hs ht
    obtain ⟨c, a, p, w, sv, tw⟩ := env
    replace hs : sv = true := hs
    replace ht : tw = true := ht
    subst hs; subst ht
    cases c with
    | error e => rfl
    | ok content =>
      by_cases hex : (extractSolution content).isEmpty
      · simp [processSingleFile, hex]
      · cases a with
        | error e => simp [processSingleFile, hex]
        | ok resp =>
          cases p with
          | error e => simp [processSingleFile, hex]
          | ok rawTags =>
            cases hu : updateFrontmatterTags content (rawTags.map normalizeTag) with
            | none => simp [processSingleFile, hex, hu]
            | some out =>
              cases w with
              | false => simp [processSingleFile, hex, hu]
              | true => simp [processSingleFile, hex, hu] at hf

/-! ### Soundness and completeness of the first-occurrence scanner -/

theorem isPre_iff {p s : Str} : p.isPrefixOf s = true ↔ p <+: s :=
  List.isPrefixOf_iff_prefix

theorem splitAtSub_cons (pat : Str) (c : Char) (l : Str) :
    splitAtSub pat (c :: l) =
      if pat.isPrefixOf (c :: l) then some ([], (c :: l).drop pat.length)
      else
        match splitAtSub pat l with
        | some (pre, post) => some (c :: pre, post)
        | none => none := rfl

theorem hasSub_cons (pat : Str) (c : Char) (l : Str) :
    hasSub pat (c :: l) = (pat.isPrefixOf (c :: l) || hasSub pat l) := by
  unfold hasSub
  rw [splitAtSub_cons]
  by_cases h : pat.isPrefixOf (c :: l)
  · simp [h]
  · simp only [h, Bool.false_eq_true, if_false, Bool.false_or]
    cases hr : splitAtSub pat l with
    | none => simp
    | some p => obtain ⟨a, b⟩ := p; simp

/-- Any explicit occurrence makes `hasSub` true. -/
theorem hasSub_of_decomp (pat : Str) : ∀ (a b : Str), hasSub pat (a ++ pat ++ b) = true := by
  intro a
  induction a with
  | nil =>
    intro b
    simp only [List.nil_append]
    cases hs : pat ++ b with
    | nil =>
      have hp : pat = [] := by
        cases pat with
        | nil => rfl
        | cons q qt => simp at hs
      subst hp
      simp [hasSub, splitAtSub, List.isEmpty]
    | cons y ys =>
      have hpre : pat.isPrefixOf (y :: ys) = true := by
        rw [← hs]; exact isPre_iff.mpr (List.prefix_append pat b)
      rw [hasSub_cons, hpre]
      simp
  | cons c a' ih =>
    intro b
    simp only [List.cons_append]
    rw [hasSub_cons]
    have := ih b
    simp only [List.append_assoc] at this ⊢
    simp [this]

/-- `splitAtSub` is sound: it returns a decomposition at the first
occurrence. -/
theorem splitAtSub_sound {pat s pre post : Str}
    (h : splitAtSub pat s = some (pre, post)) :
    s = pre ++ pat ++ post ∧ ∀ a b, s = a ++ pat ++ b → pre.length ≤ a.length := by
  induction s generalizing pre post with
  | nil =>
    cases pat with
    | nil =>
      have h' : some (([] : Str), ([] : Str)) = some (pre, post) := h
      simp only [Option.some.injEq, Prod.mk.injEq] at h'
      obtain ⟨h1, h2⟩ := h'
      subst h1; subst h2
      exact ⟨rfl, fun a b _ => Nat.zero_le _⟩
    | cons q qt =>
      simp [splitAtSub, List.isEmpty] at h
  | cons c rest ih =>
    rw [show splitAtSub pat (c :: rest) =
        (if pat.isPrefixOf (c :: rest) then some ([], (c :: rest).drop pat.length)
         else match splitAtSub pat rest with
           | some (pre, post) => some (c :: pre, post)
           | none => none) from rfl] at h
    by_cases hp : pat.isPrefixOf (c :: rest)
    · rw [if_pos hp] at h
      simp only [Option.some.injEq, Prod.mk.injEq] at h
      obtain ⟨h1, h2⟩ := h
      subst h1; subst h2
      obtain ⟨t, ht⟩ := isPre_iff.mp hp
      refine ⟨?_, fun a b _ => Nat.zero_le _⟩
      rw [← ht, List.drop_left]
      simp
    · rw [if_neg hp] at h
      cases hr : splitAtSub pat rest with
      | none => rw [hr] at h; exact absurd h (by simp)
      | some p =>
        obtain ⟨pre', post'⟩ := p
        rw [hr] at h
        simp only [Option.some.injEq, Prod.mk.injEq] at h
        obtain ⟨h1, h2⟩ := h
        subst h1; subst h2
        obtain ⟨hdec, hmin⟩ := ih hr
        constructor
        · rw [List.cons_append, List.cons_append, ← hdec]
        · intro a b hab
          cases a with
          | nil =>
            exfalso
            apply hp
            simp only [List.nil_append] at hab
            exact isPre_iff.mpr ⟨b, hab.symm⟩
          | cons a0 a' =>
            simp only [List.cons_append, List.cons.injEq] at hab
            have := hmin a' b hab.2
            simpa using this

/-- `splitAtSub` is complete: given a decomposition with no occurrence
starting strictly earlier (no occurrence inside `pre ++ pat.take (|pat|-1)`),
the scanner finds exactly it. -/
theorem splitAtSub_complete {pat : Str} : ∀ {pre post : Str},
    hasSub pat (pre ++ pat.take (pat.length - 1)) = false →
    splitAtSub pat (pre ++ pat ++ post) = some (pre, post) := by
  intro pre
  induction pre with
  | nil =>
    intro post h
    cases hp : pat with
    | nil =>
      subst hp
      simp [hasSub, splitAtSub, List.isEmpty] at h
    | cons q qt =>
      subst hp
      simp only [List.nil_append]
      rw [show (q :: qt) ++ post = q :: (qt ++ post) from rfl]
      rw [splitAtSub_cons]
      have hpre : (q :: qt).isPrefixOf (q :: (qt ++ post)) = true :=
        isPre_iff.mpr ⟨post, by simp⟩
      rw [if_pos hpre]
      have hdr : (q :: (qt ++ post)).drop (q :: qt).length = post := by
        simp only [List.length_cons, List.drop_succ_cons]
        exact List.drop_left qt post
      rw [hdr]
  | cons c pre' ih =>
    intro post h
    have hpat : pat ≠ [] := by
      intro he
      subst he
      rw [show (c :: pre') ++ List.take (List.length ([] : Str) - 1) [] =
          c :: (pre' ++ []) from by simp] at h
      rw [hasSub_cons] at h
      simp [List.isPrefixOf] at h
    rw [show (c :: pre') ++ List.take (pat.length - 1) pat =
        c :: (pre' ++ pat.take (pat.length - 1)) from by simp] at h
    rw [hasSub_cons] at h
    simp only [Bool.or_eq_false_iff] at h
    obtain ⟨hnp, hrest⟩ := h
    have hcond : pat.isPrefixOf ((c :: pre') ++ pat ++ post) = false := by
      by_contra hx
      simp only [Bool.not_eq_false] at hx
      have hx' := isPre_iff.mp hx
      -- the truncation of the full string at length |c::pre'| + |pat| - 1
      -- is exactly c :: (pre' ++ pat.take (|pat| - 1)), and the occurrence
      -- of pat at position 0 fits inside it
      have hlen : pat.length ≤ ((c :: pre') ++ pat ++ post).length := hx'.length_le
      have htr : ((c :: pre') ++ pat ++ post).take ((c :: pre').length + (pat.length - 1)) =
          c :: (pre' ++ pat.take (pat.length - 1)) := by
        rw [List.append_assoc, List.take_append_eq_append_take]
        rw [List.take_of_length_le (by omega)]
        rw [show (c :: pre').length + (pat.length - 1) - (c :: pre').length =
            pat.length - 1 from by omega]
        rw [List.take_append_eq_append_take]
        rw [show pat.length - 1 - pat.length = 0 from by omega]
        simp
      have hfit : pat.length ≤ (c :: pre').length + (pat.length - 1) := by
        have : 1 ≤ pat.length := by
          cases pat with
          | nil => exact absurd rfl hpat
          | cons x xs => simp
        simp
        omega
      have hx2 : pat <+: c :: (pre' ++ pat.take (pat.length - 1)) := by
        rw [← htr]
        have h1 : pat = ((c :: pre') ++ pat ++ post).take pat.length :=
          List.prefix_iff_eq_take.mp hx'
        rw [List.prefix_iff_eq_take]
        rw [List.take_take]
        rw [min_eq_left hfit]
        exact h1
      rw [isPre_iff.mpr hx2] at hnp
      exact absurd hnp (by simp)
    rw [show (c :: pre') ++ pat ++ post = c :: (pre' ++ pat ++ post) from by simp]
    rw [splitAtSub_cons]
    have hcond' : ¬ (pat.isPrefixOf (c :: (pre' ++ pat ++ post)) = true) := by
      intro hx
      rw [show c :: (pre' ++ pat ++ post) = (c :: pre') ++ pat ++ post from by simp] at hx
      rw [hcond] at hx
      exact absurd hx (by simp)
    rw [if_neg hcond']
    rw [ih hrest]

/-- `hasSub` decides existence of an occurrence. -/
theorem hasSub_iff {pat s : Str} :
    hasSub pat s = true ↔ ∃ a b, s = a ++ pat ++ b := by
  constructor
  · intro h
    unfold hasSub at h
    cases hr : splitAtSub pat s with
    | none => rw [hr] at h; simp at h
    | some p =>
      obtain ⟨pre, post⟩ := p
      exact ⟨pre, post, (splitAtSub_sound hr).1⟩
  · rintro ⟨a, b, rfl⟩
    exact hasSub_of_decomp pat a b

/-! ### C5: the locator -/

/-- C5, counterexample: `"---a---b"` does not begin with a delimiter line
(no line of the document is `---` at all), yet the locator recognizes a
header `"a"` there, refuting the claimed iff. -/
theorem locator_counterexample :
    locate (str "---a---b") = some (str "a", str "b") ∧
    (∀ line ∈ pySplitNL (str "---a---b"), line ≠ dash3) := by
  refine ⟨by decide, by decide⟩

/-- One-step unfolding of `locate` on a document starting with `---`. -/
theorem locate_cons (rest : Str) :
    locate ('-' :: '-' :: '-' :: rest) =
      match splitAtSub ['-', '-', '-'] rest with
      | some (fm, body) => some (fm, body)
      | none => none := rfl

theorem locate_iff_decomp (content fm body : Str) :
    locate content = some (fm, body) ↔
      (content = dash3 ++ fm ++ (dash3 ++ body) ∧
       hasSub dash3 (fm ++ ['-', '-']) = false) := by
  constructor
  · intro h
    obtain ⟨rest, hrest⟩ : ∃ rest, content = '-' :: '-' :: '-' :: rest := by
      unfold locate at h
      split at h
      · rename_i rest
        exact ⟨rest, rfl⟩
      · exact absurd h (by simp)
    subst hrest
    rw [locate_cons] at h
    · have hsp : splitAtSub dash3 rest = some (fm, body) := by
        show splitAtSub ['-', '-', '-'] rest = some (fm, body)
        cases hr : splitAtSub ['-', '-', '-'] rest with
        | none => rw [hr] at h; exact absurd h (by simp)
        | some p =>
          obtain ⟨a, b⟩ := p
          rw [hr] at h
          simp only [Option.some.injEq, Prod.mk.injEq] at h
          rw [h.1, h.2]
      obtain ⟨hdec, hmin⟩ := splitAtSub_sound hsp
      constructor
      · rw [show dash3 ++ fm ++ (dash3 ++ body) =
            '-' :: '-' :: '-' :: (fm ++ dash3 ++ body) from by simp [dash3], ← hdec]
      · by_contra hx
        simp only [Bool.not_eq_false] at hx
        obtain ⟨x, y, hxy⟩ := hasSub_iff.mp hx
        have hrest2 : rest = x ++ dash3 ++ (y ++ '-' :: body) := by
          have : fm ++ ['-', '-'] ++ ('-' :: body) = x ++ dash3 ++ y ++ '-' :: body := by
            rw [hxy]
          calc rest = fm ++ dash3 ++ body := hdec
            _ = fm ++ ['-', '-'] ++ ('-' :: body) := by simp [dash3]
            _ = x ++ dash3 ++ y ++ '-' :: body := this
            _ = x ++ dash3 ++ (y ++ '-' :: body) := by simp
        have hle := hmin x (y ++ '-' :: body) hrest2
        have hlen := congrArg List.length hxy
        simp [dash3] at hlen
        omega
  · rintro ⟨hc, hns⟩
    subst hc
    rw [show dash3 ++ fm ++ (dash3 ++ body) =
        '-' :: '-' :: '-' :: (fm ++ dash3 ++ body) from by simp [dash3]]
    rw [locate_cons]
    have hsp : splitAtSub ['-', '-', '-'] (fm ++ dash3 ++ body) = some (fm, body) := by
      show splitAtSub dash3 (fm ++ dash3 ++ body) = some (fm, body)
      apply splitAtSub_complete
      simpa [dash3] using hns
    rw [hsp]

/-- C5, amended: the locator recognizes a header iff the document starts
with the three characters `---` and the characters `---` occur again
later; the header is the text strictly between the opening `---` and the
*first* such re-occurrence (delimiters need not be whole lines).  Matching
is anchored at the start, so delimiter-like text later in a document that
does not start with `---` never produces a match, and only the first
closing occurrence counts. -/
theorem locate_iff (content fm body : Str) :
    locate content = some (fm, body) ↔
      (content = dash3 ++ fm ++ (dash3 ++ body) ∧
       hasSub dash3 (fm ++ ['-', '-']) = false) :=
  locate_iff_decomp content fm body

/-! ### Properties of `strReplace` -/

theorem replaceLoopF_succ (fuel : Nat) (c : Char) (rest old new : Str) :
    replaceLoopF (fuel + 1) (c :: rest) old new =
      if old.isPrefixOf (c :: rest) then
        new ++ replaceLoopF fuel (rest.drop (old.length - 1)) old new
      else c :: replaceLoopF fuel rest old new := rfl

theorem replaceLoopF_fuel : ∀ (n m : Nat) (s old new : Str),
    s.length ≤ n → s.length ≤ m →
    replaceLoopF n s old new = replaceLoopF m s old new := by
  intro n
  induction n with
  | zero =>
    intro m s old new hn hm
    have hs : s = [] := List.length_eq_zero.mp (Nat.le_zero.mp hn)
    subst hs
    cases m <;> rfl
  | succ n ih =>
    intro m s old new hn hm
    cases s with
    | nil => cases m <;> rfl
    | cons c rest =>
      cases m with
      | zero => exact absurd hm (by simp)
      | succ m' =>
        rw [replaceLoopF_succ, replaceLoopF_succ]
        have hr : rest.length ≤ n := by
          simp only [List.length_cons] at hn; omega
        have hr' : rest.length ≤ m' := by
          simp only [List.length_cons] at hm; omega
        by_cases hp : old.isPrefixOf (c :: rest)
        · rw [if_pos hp, if_pos hp]
          congr 1
          exact ih m' _ old new
            (le_trans (by simp) hr)
            (le_trans (by simp) hr')
        · rw [if_neg hp, if_neg hp]
          rw [ih m' rest old new hr hr']

theorem strReplace_cons (c : Char) (rest : Str) (o : Char) (ot new : Str) :
    strReplace (c :: rest) (o :: ot) new =
      if (o :: ot).isPrefixOf (c :: rest) then
        new ++ strReplace (rest.drop ot.length) (o :: ot) new
      else c :: strReplace rest (o :: ot) new := by
  show replaceLoopF (c :: rest).length (c :: rest) (o :: ot) new = _
  rw [show (c :: rest).length = rest.length + 1 from by simp, replaceLoopF_succ]
  by_cases hp : (o :: ot).isPrefixOf (c :: rest)
  · rw [if_pos hp, if_pos hp]
    congr 1
    show replaceLoopF rest.length (rest.drop ((o :: ot).length - 1)) (o :: ot) new =
      replaceLoopF (rest.drop ot.length).length (rest.drop ot.length) (o :: ot) new
    rw [show (o :: ot).length - 1 = ot.length from by simp]
    exact replaceLoopF_fuel _ _ _ _ _ (by simp) (le_refl _)
  · rw [if_neg hp, if_neg hp]
    rfl

/-- If the pattern occurs nowhere, `strReplace` is the identity. -/
theorem strReplace_no_occ {o : Char} {ot : Str} :
    ∀ {s : Str}, hasSub (o :: ot) s = false → ∀ new,
    strReplace s (o :: ot) new = s := by
  intro s
  induction s with
  | nil => intro h new; rfl
  | cons c rest ih =>
    intro h new
    rw [hasSub_cons] at h
    simp only [Bool.or_eq_false_iff] at h
    rw [strReplace_cons, if_neg (by simp [h.1]), ih h.2 new]

/-- An occurrence of the pattern at one position only (no earlier
occurrence): that occurrence is replaced, scanning continues after it. -/
theorem prefix_trunc_false {pat : Str} (hpat : pat ≠ []) (c : Char) (pre' tail : Str)
    (hnp : pat.isPrefixOf (c :: (pre' ++ pat.take (pat.length - 1))) = false) :
    pat.isPrefixOf ((c :: pre') ++ pat ++ tail) = false := by
  by_contra hx
  simp only [Bool.not_eq_false] at hx
  have hx' := isPre_iff.mp hx
  have htr : ((c :: pre') ++ pat ++ tail).take ((c :: pre').length + (pat.length - 1)) =
      c :: (pre' ++ pat.take (pat.length - 1)) := by
    rw [List.append_assoc, List.take_append_eq_append_take]
    rw [List.take_of_length_le (by omega)]
    rw [show (c :: pre').length + (pat.length - 1) - (c :: pre').length =
        pat.length - 1 from by omega]
    rw [List.take_append_eq_append_take]
    rw [show pat.length - 1 - pat.length = 0 from by omega]
    simp
  have hfit : pat.length ≤ (c :: pre').length + (pat.length - 1) := by
    have : 1 ≤ pat.length := by
      cases pat with
      | nil => exact absurd rfl hpat
      | cons x xs => simp
    simp
    omega
  have hx2 : pat <+: c :: (pre' ++ pat.take (pat.length - 1)) := by
    rw [← htr]
    have h1 : pat = ((c :: pre') ++ pat ++ tail).take pat.length :=
      List.prefix_iff_eq_take.mp hx'
    rw [List.prefix_iff_eq_take, List.take_take, min_eq_left hfit]
    exact h1
  rw [isPre_iff.mpr hx2] at hnp
  exact absurd hnp (by simp)

/-- Replacement at an isolated occurrence: if no occurrence of the pattern
starts inside `pre` (or overlapping it), the scan copies `pre`, replaces
the occurrence, and continues after it. -/
theorem strReplace_at (o : Char) (ot : Str) :
    ∀ (pre : Str),
    hasSub (o :: ot) (pre ++ (o :: ot).take ((o :: ot).length - 1)) = false →
    ∀ (rest new : Str),
    strReplace (pre ++ (o :: ot) ++ rest) (o :: ot) new =
      pre ++ new ++ strReplace rest (o :: ot) new := by
  intro pre
  induction pre with
  | nil =>
    intro h rest new
    simp only [List.nil_append]
    rw [show (o :: ot) ++ rest = o :: (ot ++ rest) from rfl, strReplace_cons]
    rw [if_pos (isPre_iff.mpr ⟨rest, by simp⟩)]
    rw [List.drop_left ot rest]
  | cons c pre' ih =>
    intro h rest new
    rw [show (c :: pre') ++ (o :: ot) ++ rest = c :: (pre' ++ (o :: ot) ++ rest) from by simp]
    rw [strReplace_cons]
    rw [show (c :: pre') ++ (o :: ot).take ((o :: ot).length - 1) =
        c :: (pre' ++ (o :: ot).take ((o :: ot).length - 1)) from by simp] at h
    rw [hasSub_cons] at h
    simp only [Bool.or_eq_false_iff] at h
    obtain ⟨hnp, hrest⟩ := h
    have hcond := prefix_trunc_false (by simp) c pre' rest hnp
    rw [if_neg ?_]
    · rw [ih hrest rest new]
      simp
    · intro hx
      rw [show c :: (pre' ++ (o :: ot) ++ rest) = (c :: pre') ++ (o :: ot) ++ rest
          from by simp] at hx
      rw [hcond] at hx
      exact absurd hx (by simp)

/-- Replacing a pattern by itself is the identity. -/
theorem strReplace_self_aux (o : Char) (ot : Str) :
    ∀ (n : Nat) (s : Str), s.length ≤ n → strReplace s (o :: ot) (o :: ot) = s := by
  intro n
  induction n with
  | zero =>
    intro s h
    have hs : s = [] := List.length_eq_zero.mp (Nat.le_zero.mp h)
    subst hs
    rfl
  | succ n ih =>
    intro s h
    cases s with
    | nil => rfl
    | cons c rest =>
      rw [strReplace_cons]
      by_cases hp : (o :: ot).isPrefixOf (c :: rest)
      · rw [if_pos hp]
        obtain ⟨t, ht⟩ := isPre_iff.mp hp
        have hdrop : rest.drop ot.length = t := by
          have h2 := congrArg (List.drop (o :: ot).length) ht
          rw [List.drop_left] at h2
          simp only [List.length_cons, List.drop_succ_cons] at h2
          exact h2.symm
        rw [hdrop]
        have htl : t.length ≤ n := by
          have := congrArg List.length ht
          simp only [List.length_append, List.length_cons] at this h
          omega
        rw [ih t htl, ← ht]
      · rw [if_neg hp]
        have : rest.length ≤ n := by
          simp only [List.length_cons] at h; omega
        rw [ih rest this]

theorem strReplace_self {o : Char} {ot : Str} (s : Str) :
    strReplace s (o :: ot) (o :: ot) = s :=
  strReplace_self_aux o ot s.length s (le_refl _)

/-- Replacing the frontmatter inside a well-formed document whose header
text occurs only at the header position rewrites exactly the header. -/
theorem strReplace_header (fm body X : Str) (hfm : fm ≠ [])
    (hov : hasSub fm (dash3 ++ fm.take (fm.length - 1)) = false)
    (hbody : hasSub fm (dash3 ++ body) = false) :
    strReplace (dash3 ++ fm ++ (dash3 ++ body)) fm X = dash3 ++ X ++ (dash3 ++ body) := by
  obtain ⟨o, ot, rfl⟩ : ∃ o ot, fm = o :: ot := by
    cases fm with
    | nil => exact absurd rfl hfm
    | cons a b => exact ⟨a, b, rfl⟩
  rw [strReplace_at o ot dash3 hov (dash3 ++ body) X]
  rw [strReplace_no_occ hbody X]

/-! ### C2: the rewrite and the body -/

/-- C2, counterexample: in `"---\nt\n---\nt\n"` the header text `"\nt\n"`
also occurs in the body; line 206's `content.replace(frontmatter, ...)`
replaces *every* occurrence, so the body is rewritten too: the body after
the rewrite is not the body before. -/
theorem body_corruption_counterexample :
    bodyOf (str "---\nt\n---\nt\n") = str "\nt\n" ∧
    updateFrontmatterTags (str "---\nt\n---\nt\n") [str "array"] =
      some (str "---\nt\ntags:\n  - array\n---\nt\ntags:\n  - array\n") ∧
    bodyOf (str "---\nt\ntags:\n  - array\n---\nt\ntags:\n  - array\n") ≠ str "\nt\n" := by
  refine ⟨by decide, by decide, by decide⟩

/-- C2, amended: provided the located header text is non-empty, occurs
nowhere in the closing delimiter plus body, and no occurrence of it starts
inside the opening delimiter, every successful rewrite produces
`--- ++ fm' ++ --- ++ body` for some new header text `fm'`: the body is
byte-for-byte the body of the input, and only the header region is
rewritten.  Without that proviso `str.replace` replaces every occurrence
of the header text and can corrupt the body (see the counterexample). -/
theorem rewrite_changes_only_header (content fm body out : Str) (tags : List Str)
    (hloc : locate content = some (fm, body))
    (hfm : fm ≠ [])
    (hov : hasSub fm (dash3 ++ fm.take (fm.length - 1)) = false)
    (hbody : hasSub fm (dash3 ++ body) = false)
    (hupd : updateFrontmatterTags content tags = some out) :
    ∃ fm', out = dash3 ++ fm' ++ (dash3 ++ body) := by
  have hcontent : content = dash3 ++ fm ++ (dash3 ++ body) :=
    ((locate_iff_decomp content fm body).mp hloc).1
  have key : ∀ X, strReplace content fm X = dash3 ++ X ++ (dash3 ++ body) := by
    intro X
    rw [hcontent]
    exact strReplace_header fm body X hfm hov hbody
  unfold updateFrontmatterTags at hupd
  simp only [hloc] at hupd
  cases hts : tagsSearch fm with
  | some m =>
    simp only [hts] at hupd
    by_cases hbr : hasSub ['[', ']'] m.g0 = true
    · rw [if_pos hbr] at hupd
      simp only [Option.some.injEq] at hupd
      exact ⟨_, by rw [← hupd, key]⟩
    · rw [if_neg hbr] at hupd
      cases hg : m.g1 with
      | none => simp only [hg] at hupd; exact absurd hupd (by simp)
      | some g =>
        simp only [hg, Option.some.injEq] at hupd
        exact ⟨_, by rw [← hupd, key]⟩
  | none =>
    simp only [hts] at hupd
    by_cases hemp : hasEmptyTags fm = true
    · rw [if_pos hemp] at hupd
      simp only [Option.some.injEq] at hupd
      exact ⟨_, by rw [← hupd, key]⟩
    · rw [if_neg hemp] at hupd
      simp only [Option.some.injEq] at hupd
      exact ⟨_, by rw [← hupd, key]⟩

theorem rewrite_changes_only_header_witness :
    locate (str "---\nk: v\ntags:\n  - b\n---\nBody") =
      some (str "\nk: v\ntags:\n  - b\n", str "\nBody") ∧
    updateFrontmatterTags (str "---\nk: v\ntags:\n  - b\n---\nBody") [str "a"] =
      some (str "---\nk: v\ntags:\n  - a\n  - b\n---\nBody") ∧
    ∃ fm', str "---\nk: v\ntags:\n  - a\n  - b\n---\nBody" =
      dash3 ++ fm' ++ (dash3 ++ str "\nBody") :=
  ⟨by decide, by decide,
   rewrite_changes_only_header (str "---\nk: v\ntags:\n  - b\n---\nBody")
     (str "\nk: v\ntags:\n  - b\n") (str "\nBody")
     (str "---\nk: v\ntags:\n  - a\n  - b\n---\nBody") [str "a"]
     (by decide) (by decide) (by decide) (by decide) (by decide)⟩

/-! ### Unfolding equations for the fuelled scanners -/

theorem itemsMatchF_fuel : ∀ (n m : Nat) (u : Str),
    u.length ≤ n → u.length ≤ m → itemsMatchF n u = itemsMatchF m u := by
  intro n
  induction n with
  | zero =>
    intro m u hn hm
    have hu : u = [] := List.length_eq_zero.mp (Nat.le_zero.mp hn)
    subst hu
    cases m with
    | zero => rfl
    | succ m' =>
      show ([], ([] : Str)) = itemsMatchF (m' + 1) []
      simp [itemsMatchF, wsSplit]
  | succ n ih =>
    intro m u hn hm
    cases u with
    | nil =>
      cases m with
      | zero => simp [itemsMatchF, wsSplit]
      | succ m' => simp [itemsMatchF, wsSplit]
    | cons c u' =>
      cases m with
      | zero => exact absurd hm (by simp)
      | succ m' =>
        show itemsMatchF (n + 1) (c :: u') = itemsMatchF (m' + 1) (c :: u')
        simp only [itemsMatchF]
        split
        · rename_i v2 heq
          split
          · rename_i consumed rest had
            have hlen : rest.length + 2 ≤ v2.length := itemAfterDash_rest_len had
            have hv2 : v2.length < (c :: u').length := by
              have h1 : (wsSplit (c :: u')).1.length + (wsSplit (c :: u')).2.length =
                  (c :: u').length := by
                conv_rhs => rw [← wsSplit_append (c :: u')]
                simp
              rw [heq] at h1
              simp only [List.length_cons] at h1 ⊢
              omega
            have hn' : (c :: u').length ≤ n + 1 := hn
            have hm' : (c :: u').length ≤ m' + 1 := hm
            have hb : (c :: u').length = u'.length + 1 := by simp
            have hrw := ih m' rest (by omega) (by omega)
            rw [hrw]
          · rfl
        · rfl

/-- One-step unfolding of `itemsMatch`, independent of fuel. -/
theorem itemsMatch_eq (u : Str) :
    itemsMatch u =
      match (wsSplit u).2 with
      | '-' :: v2 =>
        match itemAfterDash v2 with
        | some (consumed, rest) =>
          ((wsSplit u).1 ++ '-' :: (consumed ++ (itemsMatch rest).1), (itemsMatch rest).2)
        | none => ([], u)
      | _ => ([], u) := by
  cases hu : u with
  | nil =>
    show itemsMatchF 0 [] = _
    simp [itemsMatchF, wsSplit]
  | cons c u' =>
    show itemsMatchF (u'.length + 1) (c :: u') = _
    simp only [itemsMatchF]
    split
    · rename_i v2 heq
      split
      · rename_i consumed rest had
        have hlen : rest.length + 2 ≤ v2.length := itemAfterDash_rest_len had
        have hv2 : v2.length < (c :: u').length := by
          have h1 : (wsSplit (c :: u')).1.length + (wsSplit (c :: u')).2.length =
              (c :: u').length := by
            conv_rhs => rw [← wsSplit_append (c :: u')]
            simp
          rw [heq] at h1
          simp only [List.length_cons] at h1 ⊢
          omega
        have hrw : itemsMatchF u'.length rest = itemsMatch rest := by
          apply itemsMatchF_fuel
          · simp only [List.length_cons] at hv2; omega
          · exact le_refl _
        rw [hrw]
      · rfl
    · rfl

theorem subTagsF_fuel : ∀ (n m : Nat) (fm repl : Str),
    fm.length ≤ n → fm.length ≤ m → subTagsF n fm repl = subTagsF m fm repl := by
  intro n
  induction n with
  | zero =>
    intro m fm repl hn hm
    have hf : fm = [] := List.length_eq_zero.mp (Nat.le_zero.mp hn)
    subst hf
    cases m <;> rfl
  | succ n ih =>
    intro m fm repl hn hm
    cases fm with
    | nil => cases m <;> rfl
    | cons c rest =>
      cases m with
      | zero => exact absurd hm (by simp)
      | succ m' =>
        show subTagsF (n + 1) (c :: rest) repl = subTagsF (m' + 1) (c :: rest) repl
        simp only [subTagsF]
        split
        · rename_i mt ha
          have hlt : mt.rest.length + 6 ≤ (c :: rest).length := alt2_rest_len ha
          have h1 : (c :: rest).length ≤ n + 1 := hn
          have h2 : (c :: rest).length ≤ m' + 1 := hm
          have h3 : (c :: rest).length = rest.length + 1 := by simp
          rw [ih m' mt.rest repl (by omega) (by omega)]
        · have h1 : (c :: rest).length = rest.length + 1 := by simp
          have h2 : (c :: rest).length ≤ n + 1 := hn
          have h3 : (c :: rest).length ≤ m' + 1 := hm
          rw [ih m' rest repl (by omega) (by omega)]

/-- One-step unfolding of `subTags`, independent of fuel. -/
theorem subTags_eq (fm repl : Str) :
    subTags fm repl =
      match fm with
      | [] => []
      | c :: rest =>
        match alt2 (c :: rest) with
        | some m => repl ++ subTags m.rest repl
        | none => c :: subTags rest repl := by
  cases fm with
  | nil => rfl
  | cons c rest =>
    show subTagsF (rest.length + 1) (c :: rest) repl = _
    simp only [subTagsF]
    split
    · rename_i mt ha
      have hlt : mt.rest.length + 6 ≤ (c :: rest).length := alt2_rest_len ha
      simp only [List.length_cons] at hlt
      rw [subTagsF_fuel rest.length mt.rest.length mt.rest repl (by omega) (le_refl _)]
      rfl
    · rfl

/-! ### Clean tags -/

/-- Characters of a well-formed normalized tag. -/
def allowedChar (c : Char) : Bool := c.isLower || c.isDigit || c == '-'

/-- Tags of the shape the normalization produces from well-formed names:
non-empty, over lowercase letters, digits and isolated hyphens, not ending
in a hyphen. -/
def cleanTag (t : Str) : Prop :=
  t ≠ [] ∧ (∀ c ∈ t, allowedChar c = true) ∧ hasSub ['-', '-'] t = false ∧
    t.getLast? ≠ some '-'

instance (t : Str) : Decidable (cleanTag t) := by
  unfold cleanTag; infer_instance

theorem allowed_not_ws {c : Char} (h : allowedChar c = true) : isWS c = false := by
  by_contra hx
  simp only [Bool.not_eq_false] at hx
  simp only [isWS, Bool.or_eq_true, beq_iff_eq] at hx
  rcases hx with ((((h1 | h1) | h1) | h1) | h1) | h1 <;> subst h1 <;>
    exact absurd h (by decide)

theorem allowed_ne_nl {c : Char} (h : allowedChar c = true) : c ≠ '\n' := by
  intro hx; subst hx; exact absurd h (by decide)

theorem allowed_ne_lb {c : Char} (h : allowedChar c = true) : c ≠ '[' := by
  intro hx; subst hx; exact absurd h (by decide)

theorem clean_no_nl {t : Str} (hc : cleanTag t) : ∀ c ∈ t, c ≠ '\n' :=
  fun c hm => allowed_ne_nl (hc.2.1 c hm)

theorem clean_not_ws {t : Str} (hc : cleanTag t) : ∀ c ∈ t, isWS c = false :=
  fun c hm => allowed_not_ws (hc.2.1 c hm)

/-! ### `---` never occurs in a serialized clean tag list -/

theorem dash3_pre_false_1 {c : Char} (hc : c ≠ '-') (l : Str) :
    dash3.isPrefixOf (c :: l) = false := by
  show (('-' == c) && (List.isPrefixOf ['-', '-'] l)) = false
  have hb : ('-' == c) = false := beq_eq_false_iff_ne.mpr (Ne.symm hc)
  rw [hb, Bool.false_and]

theorem dash3_pre_false_2 {c d : Char} (hd : d ≠ '-') (l : Str) :
    dash3.isPrefixOf (c :: d :: l) = false := by
  show (('-' == c) && (('-' == d) && (List.isPrefixOf ['-'] l))) = false
  have hb : ('-' == d) = false := beq_eq_false_iff_ne.mpr (Ne.symm hd)
  rw [hb, Bool.false_and, Bool.and_false]

/-- Walking `---`-freeness through one clean tag followed by a newline. -/
theorem hasSub3_through_tag : ∀ (t : Str), hasSub ['-', '-'] t = false →
    ∀ z, hasSub dash3 z = false → hasSub dash3 (t ++ '\n' :: z) = false := by
  intro t
  induction t with
  | nil =>
    intro _ z hz
    simp only [List.nil_append]
    rw [hasSub_cons, dash3_pre_false_1 (by decide) z, hz]
    rfl
  | cons c t' ih =>
    intro hnd z hz
    rw [hasSub_cons] at hnd
    simp only [Bool.or_eq_false_iff] at hnd
    obtain ⟨hh, ht'⟩ := hnd
    simp only [List.cons_append]
    rw [hasSub_cons]
    have hpre : dash3.isPrefixOf (c :: (t' ++ '\n' :: z)) = false := by
      by_cases hc : c = '-'
      · subst hc
        cases t' with
        | nil => simpa using dash3_pre_false_2 (show '\n' ≠ '-' by decide) z
        | cons d t'' =>
          have hd : d ≠ '-' := by
            intro hx; subst hx
            simp [List.isPrefixOf] at hh
          simpa using dash3_pre_false_2 hd (t'' ++ '\n' :: z)
      · exact dash3_pre_false_1 hc _
    rw [hpre, ih ht' z hz]
    rfl

/-- A serialized list line. -/
def itemLine (t : Str) : Str := ' ' :: ' ' :: '-' :: ' ' :: (t ++ ['\n'])

/-- The serialized list-item region: one `  - tag\n` line per tag. -/
def itemLines (ts : List Str) : Str := concatAll (ts.map itemLine)

theorem itemLines_cons (t : Str) (ts : List Str) :
    itemLines (t :: ts) = ' ' :: ' ' :: '-' :: ' ' :: (t ++ '\n' :: itemLines ts) := by
  simp [itemLines, itemLine, concatAll]

theorem hasSub3_itemLines : ∀ (ts : List Str), (∀ t ∈ ts, cleanTag t) →
    ∀ z, hasSub dash3 z = false → hasSub dash3 (itemLines ts ++ z) = false := by
  intro ts
  induction ts with
  | nil =>
    intro _ z hz
    simpa [itemLines, concatAll] using hz
  | cons t ts' ih =>
    intro hcl z hz
    rw [itemLines_cons]
    simp only [List.cons_append]
    rw [hasSub_cons, dash3_pre_false_1 (by decide) _, Bool.false_or]
    rw [hasSub_cons, dash3_pre_false_1 (by decide) _, Bool.false_or]
    rw [hasSub_cons, dash3_pre_false_2 (by decide) _, Bool.false_or]
    rw [hasSub_cons, dash3_pre_false_1 (by decide) _, Bool.false_or]
    have ht := (hcl t (by simp)).2.2.1
    have hrec := ih (fun u hu => hcl u (by simp [hu])) z hz
    have hgoal := hasSub3_through_tag t ht (itemLines ts' ++ z) hrec
    simp only [List.append_assoc, List.cons_append] at hgoal ⊢
    exact hgoal

/-- The whole synthesized header text, followed by the first two dashes of
the closing delimiter, contains no `---`. -/
theorem hasSub3_fm (ts : List Str) (hcl : ∀ t ∈ ts, cleanTag t) :
    hasSub dash3 (('\n' :: (tagsKey ++ '\n' :: itemLines ts)) ++ ['-', '-']) = false := by
  rw [show ('\n' :: (tagsKey ++ '\n' :: itemLines ts)) ++ ['-', '-'] =
      '\n' :: 't' :: 'a' :: 'g' :: 's' :: ':' :: '\n' :: (itemLines ts ++ ['-', '-'])
      from by simp [tagsKey]]
  rw [hasSub_cons, dash3_pre_false_1 (by decide) _, Bool.false_or]
  rw [hasSub_cons, dash3_pre_false_1 (by decide) _, Bool.false_or]
  rw [hasSub_cons, dash3_pre_false_1 (by decide) _, Bool.false_or]
  rw [hasSub_cons, dash3_pre_false_1 (by decide) _, Bool.false_or]
  rw [hasSub_cons, dash3_pre_false_1 (by decide) _, Bool.false_or]
  rw [hasSub_cons, dash3_pre_false_1 (by decide) _, Bool.false_or]
  rw [hasSub_cons, dash3_pre_false_1 (by decide) _, Bool.false_or]
  exact hasSub3_itemLines ts hcl ['-', '-'] (by decide)

/-! ### Splitting and stripping canonical serializations -/

theorem nlSplit_append (a : Str) (ha : ∀ c ∈ a, c ≠ '\n') (b : Str) :
    nlSplit (a ++ '\n' :: b) = some (a, b) := by
  induction a with
  | nil => simp [nlSplit]
  | cons c a' ih =>
    have hc : c ≠ '\n' := ha c (by simp)
    simp only [List.cons_append, nlSplit, if_neg hc, List.append_eq]
    rw [ih (fun d hd => ha d (by simp [hd]))]

theorem pySplitNL_no_nl (a : Str) (ha : ∀ c ∈ a, c ≠ '\n') : pySplitNL a = [a] := by
  induction a with
  | nil => rfl
  | cons c a' ih =>
    have hc : c ≠ '\n' := ha c (by simp)
    simp only [pySplitNL, if_neg hc]
    rw [ih (fun d hd => ha d (by simp [hd]))]

theorem pySplitNL_append (a : Str) (ha : ∀ c ∈ a, c ≠ '\n') (b : Str) :
    pySplitNL (a ++ '\n' :: b) = a :: pySplitNL b := by
  induction a with
  | nil => simp [pySplitNL]
  | cons c a' ih =>
    have hc : c ≠ '\n' := ha c (by simp)
    simp only [List.cons_append, pySplitNL, if_neg hc, List.append_eq]
    rw [ih (fun d hd => ha d (by simp [hd]))]

theorem dropTrailingWS_append_nl (y : Str) :
    dropTrailingWS (y ++ ['\n']) = dropTrailingWS y := by
  unfold dropTrailingWS
  rw [List.reverse_append]
  simp [List.dropWhile_cons, isWS]

theorem dropTrailingWS_stable {s : Str} {d : Char} {rev : Str}
    (h : s.reverse = d :: rev) (hd : isWS d = false) : dropTrailingWS s = s := by
  unfold dropTrailingWS
  rw [h, List.dropWhile_cons, if_neg (by simp [hd]), ← h, List.reverse_reverse]

/-- A clean tag read backwards starts with an allowed non-hyphen character. -/
theorem clean_reverse (t : Str) (hc : cleanTag t) :
    ∃ d rev, t.reverse = d :: rev ∧ allowedChar d = true ∧ d ≠ '-' := by
  obtain ⟨hne, hall, _, hlast⟩ := hc
  cases hr : t.reverse with
  | nil => exact absurd (by simpa using hr) hne
  | cons d rev =>
    have hd_mem : d ∈ t := by
      have hx : d ∈ t.reverse := by simp [hr]
      simpa using hx
    refine ⟨d, rev, rfl, hall d hd_mem, ?_⟩
    intro hx; subst hx
    apply hlast
    rw [← List.head?_reverse, hr]
    rfl

/-! ### The scanners on the canonical serialization -/

/-- `joinTags` differs from the item-lines region only by the final newline. -/
theorem joinTags_itemLines : ∀ (ts : List Str), ts ≠ [] →
    joinTags ts ++ ['\n'] = itemLines ts := by
  intro ts
  induction ts with
  | nil => intro h; exact absurd rfl h
  | cons t ts' ih =>
    intro _
    cases ts' with
    | nil => simp [joinTags, itemLines, itemLine, concatAll]
    | cons u us =>
      rw [show joinTags (t :: u :: us) =
          (' ' :: ' ' :: '-' :: ' ' :: t) ++ '\n' :: joinTags (u :: us) from rfl]
      rw [itemLines_cons]
      rw [← ih (by simp)]
      simp

/-- The item parser consumes exactly one canonical line. -/
theorem itemAfterDash_canonical (t : Str) (hct : cleanTag t) (Z : Str) :
    itemAfterDash (' ' :: (t ++ '\n' :: Z)) = some (' ' :: (t ++ ['\n']), Z) := by
  obtain ⟨c0, t0, hct0⟩ : ∃ c0 t0, t = c0 :: t0 := by
    cases t with
    | nil => exact absurd rfl hct.1
    | cons a b => exact ⟨a, b, rfl⟩
  have hws2 : wsSplit (' ' :: (t ++ '\n' :: Z)) = ([' '], t ++ '\n' :: Z) := by
    rw [wsSplit_cons_ws (by decide)]
    rw [hct0]
    simp only [List.cons_append]
    rw [wsSplit_cons_neg (allowed_not_ws (hct.2.1 c0 (by rw [hct0]; simp)))]
  unfold itemAfterDash
  rw [hws2]
  show tryFrom (' ' :: (t ++ '\n' :: Z)) 1 = _
  show (match nlSplit ((' ' :: (t ++ '\n' :: Z)).drop 1) with
    | some (b, aft) =>
      if b.isEmpty then tryFrom (' ' :: (t ++ '\n' :: Z)) 0
      else some ((' ' :: (t ++ '\n' :: Z)).take (0 + 1 + b.length + 1), aft)
    | none => tryFrom (' ' :: (t ++ '\n' :: Z)) 0) = _
  rw [show (' ' :: (t ++ '\n' :: Z)).drop 1 = t ++ '\n' :: Z from rfl]
  rw [nlSplit_append t (clean_no_nl hct) Z]
  have hemp : t.isEmpty = false := by rw [hct0]; rfl
  simp only [hemp, Bool.false_eq_true, if_false]
  have hlen2 : 0 + 1 + t.length + 1 = (' ' :: (t ++ ['\n'])).length := by
    simp
    omega
  have htake : (' ' :: (t ++ '\n' :: Z)).take (0 + 1 + t.length + 1) =
      ' ' :: (t ++ ['\n']) := by
    rw [show ' ' :: (t ++ '\n' :: Z) = (' ' :: (t ++ ['\n'])) ++ Z from by simp]
    rw [hlen2]
    exact List.take_left _ _
  rw [htake]

/-- The items scanner consumes the whole canonical serialization. -/
theorem itemsMatch_canonical : ∀ (ts : List Str), (∀ t ∈ ts, cleanTag t) →
    itemsMatch (itemLines ts) = (itemLines ts, []) := by
  intro ts
  induction ts with
  | nil => intro _; rfl
  | cons t ts' ih =>
    intro hcl
    have hct : cleanTag t := hcl t (by simp)
    rw [itemLines_cons, itemsMatch_eq]
    have hws : wsSplit (' ' :: ' ' :: '-' :: ' ' :: (t ++ '\n' :: itemLines ts')) =
        ([' ', ' '], '-' :: ' ' :: (t ++ '\n' :: itemLines ts')) := by
      rw [wsSplit_cons_ws (by decide), wsSplit_cons_ws (by decide),
          wsSplit_cons_neg (by decide)]
    rw [hws]
    simp only
    rw [itemAfterDash_canonical t hct (itemLines ts')]
    simp only
    rw [ih (fun u hu => hcl u (by simp [hu]))]
    simp

/-- The second regex alternative on the canonical `tags:` section: it
matches the whole section, captures exactly the item lines, and leaves
nothing behind. -/
theorem alt2_canonical (ts : List Str) (hcl : ∀ t ∈ ts, cleanTag t) (hne : ts ≠ []) :
    alt2 (tagsKey ++ '\n' :: itemLines ts) =
      some ⟨tagsKey ++ '\n' :: itemLines ts, some (itemLines ts), []⟩ := by
  obtain ⟨t, ts', rfl⟩ : ∃ t ts', ts = t :: ts' := by
    cases ts with
    | nil => exact absurd rfl hne
    | cons a b => exact ⟨a, b, rfl⟩
  unfold alt2
  rw [if_pos (isPre_iff.mpr (List.prefix_append tagsKey _))]
  simp only [show List.drop 5 (tagsKey ++ '\n' :: itemLines (t :: ts')) =
      '\n' :: itemLines (t :: ts') from rfl]
  have hws : wsSplit ('\n' :: itemLines (t :: ts')) =
      (['\n', ' ', ' '], '-' :: ' ' :: (t ++ '\n' :: itemLines ts')) := by
    rw [itemLines_cons]
    rw [wsSplit_cons_ws (by decide), wsSplit_cons_ws (by decide),
        wsSplit_cons_ws (by decide), wsSplit_cons_neg (by decide)]
  rw [hws]
  simp only
  rw [show lastNLSplit ['\n', ' ', ' '] = some ([], [' ', ' ']) from by decide]
  simp only
  have hdrop : ('\n' :: itemLines (t :: ts')).drop (['\n', ' ', ' '] : Str).length =
      '-' :: ' ' :: (t ++ '\n' :: itemLines ts') := by
    rw [itemLines_cons]
    rfl
  rw [hdrop]
  have hre : ([' ', ' '] : Str) ++ '-' :: ' ' :: (t ++ '\n' :: itemLines ts') =
      itemLines (t :: ts') := by
    rw [itemLines_cons]
    rfl
  rw [hre]
  rw [itemsMatch_canonical (t :: ts') hcl]
  simp

/-! ### Parsing the canonical serialization back -/

/-- What remains of the item-lines region after the outer `.strip()`:
the leading `  - ` of the first line and the final newline are gone. -/
def stripped : List Str → Str
  | [] => []
  | [t] => t
  | t :: ts => t ++ '\n' :: (' ' :: ' ' :: '-' :: ' ' :: stripped ts)

/-- A list containing a non-whitespace character does not strip to nothing. -/
theorem dropWhile_ws_ne_nil {l : Str} {c : Char} (hc : c ∈ l) (h : isWS c = false) :
    l.dropWhile isWS ≠ [] := by
  induction l with
  | nil => simp at hc
  | cons d l' ih =>
    rw [List.dropWhile_cons]
    by_cases hd : isWS d = true
    · rw [if_pos hd]
      rcases List.mem_cons.mp hc with h1 | h1
      · subst h1; rw [hd] at h; exact absurd h (by simp)
      · exact ih h1
    · rw [if_neg hd]
      simp

theorem dropTrailingWS_append_left (A B : Str) (h : B.reverse.dropWhile isWS ≠ []) :
    dropTrailingWS (A ++ B) = A ++ dropTrailingWS B := by
  unfold dropTrailingWS
  rw [List.reverse_append, List.dropWhile_append]
  rw [if_neg (by simpa [List.isEmpty_iff] using h)]
  rw [List.reverse_append, List.reverse_reverse]

theorem dropTrailingWS_itemLines : ∀ (ts : List Str), (∀ t ∈ ts, cleanTag t) →
    ts ≠ [] →
    dropTrailingWS (itemLines ts) = ' ' :: ' ' :: '-' :: ' ' :: stripped ts := by
  intro ts
  induction ts with
  | nil => intro _ h; exact absurd rfl h
  | cons t ts' ih =>
    intro hcl _
    have hct : cleanTag t := hcl t (by simp)
    obtain ⟨d, rev, hdr, hda, _⟩ := clean_reverse t hct
    cases ts' with
    | nil =>
      rw [show itemLines [t] = (' ' :: ' ' :: '-' :: ' ' :: t) ++ ['\n'] from by
        simp [itemLines, itemLine, concatAll]]
      rw [dropTrailingWS_append_nl]
      have hrev : (' ' :: ' ' :: '-' :: ' ' :: t).reverse =
          d :: (rev ++ [' ', '-', ' ', ' ']) := by
        rw [show (' ' :: ' ' :: '-' :: ' ' :: t) = [' ', ' ', '-', ' '] ++ t from rfl]
        rw [List.reverse_append, hdr]
        rfl
      rw [dropTrailingWS_stable hrev (allowed_not_ws hda)]
      rfl
    | cons u us =>
      have hrec := ih (fun v hv => hcl v (by simp [hv])) (by simp)
      rw [show itemLines (t :: u :: us) = itemLine t ++ itemLines (u :: us) from by
        simp [itemLines, concatAll]]
      rw [dropTrailingWS_append_left _ _
          (dropWhile_ws_ne_nil (c := '-') (by rw [itemLines_cons]; simp) (by decide))]
      rw [hrec]
      rw [show stripped (t :: u :: us) =
          t ++ '\n' :: (' ' :: ' ' :: '-' :: ' ' :: stripped (u :: us)) from rfl]
      simp [itemLine]

theorem pyStrip_itemLines (ts : List Str) (hcl : ∀ t ∈ ts, cleanTag t) (t : Str)
    (ts' : List Str) (hts : ts = t :: ts') :
    pyStrip (itemLines ts) = '-' :: ' ' :: stripped ts := by
  subst hts
  unfold pyStrip
  have hdw : (itemLines (t :: ts')).dropWhile isWS =
      '-' :: ' ' :: (t ++ '\n' :: itemLines ts') := by
    rw [itemLines_cons]
    rw [List.dropWhile_cons, if_pos (by decide), List.dropWhile_cons, if_pos (by decide),
        List.dropWhile_cons, if_neg (by decide)]
  rw [hdw]
  have h2 := dropTrailingWS_itemLines (t :: ts') hcl (by simp)
  rw [itemLines_cons] at h2
  -- peel the leading "  " of both sides of h2
  have h3 : dropTrailingWS ('-' :: ' ' :: (t ++ '\n' :: itemLines ts')) =
      '-' :: ' ' :: stripped (t :: ts') := by
    have e1 : (' ' :: ' ' :: '-' :: ' ' :: (t ++ '\n' :: itemLines ts')) =
        [' ', ' '] ++ ('-' :: ' ' :: (t ++ '\n' :: itemLines ts')) := rfl
    have e2 : (' ' :: ' ' :: '-' :: ' ' :: stripped (t :: ts')) =
        [' ', ' '] ++ ('-' :: ' ' :: stripped (t :: ts')) := rfl
    rw [e1, e2] at h2
    have hB : ('-' :: ' ' :: (t ++ '\n' :: itemLines ts')).reverse.dropWhile isWS ≠ [] :=
      dropWhile_ws_ne_nil (c := '-') (by simp) (by decide)
    rw [dropTrailingWS_append_left _ _ hB] at h2
    exact List.append_cancel_left h2
  exact h3

theorem pySplitNL_stripped_tail : ∀ (ts : List Str), (∀ t ∈ ts, cleanTag t) →
    ts ≠ [] →
    pySplitNL (' ' :: ' ' :: '-' :: ' ' :: stripped ts) =
      ts.map (fun t => ' ' :: ' ' :: '-' :: ' ' :: t) := by
  intro ts
  induction ts with
  | nil => intro _ h; exact absurd rfl h
  | cons t ts' ih =>
    intro hcl _
    have hct : cleanTag t := hcl t (by simp)
    cases ts' with
    | nil =>
      rw [show stripped [t] = t from rfl]
      rw [pySplitNL_no_nl _ ?hnl]
      · rfl
      case hnl =>
        intro c hc
        rcases List.mem_cons.mp hc with h1 | h1
        · subst h1; decide
        · rcases List.mem_cons.mp h1 with h2 | h2
          · subst h2; decide
          · rcases List.mem_cons.mp h2 with h3 | h3
            · subst h3; decide
            · rcases List.mem_cons.mp h3 with h4 | h4
              · subst h4; decide
              · exact clean_no_nl hct c h4
    | cons u us =>
      rw [show stripped (t :: u :: us) =
          t ++ '\n' :: (' ' :: ' ' :: '-' :: ' ' :: stripped (u :: us)) from rfl]
      have e1 : ' ' :: ' ' :: '-' :: ' ' ::
          (t ++ '\n' :: (' ' :: ' ' :: '-' :: ' ' :: stripped (u :: us))) =
          (' ' :: ' ' :: '-' :: ' ' :: t) ++
            '\n' :: (' ' :: ' ' :: '-' :: ' ' :: stripped (u :: us)) := by simp
      rw [e1]
      rw [pySplitNL_append _ ?hnl2 _]
      · rw [ih (fun v hv => hcl v (by simp [hv])) (by simp)]
        rfl
      case hnl2 =>
        intro c hc
        rcases List.mem_cons.mp hc with h1 | h1
        · subst h1; decide
        · rcases List.mem_cons.mp h1 with h2 | h2
          · subst h2; decide
          · rcases List.mem_cons.mp h2 with h3 | h3
            · subst h3; decide
            · rcases List.mem_cons.mp h3 with h4 | h4
              · subst h4; decide
              · exact clean_no_nl hct c h4

theorem pySplitNL_stripped (t : Str) (ts : List Str) (hct : cleanTag t)
    (hcl : ∀ u ∈ ts, cleanTag u) :
    pySplitNL ('-' :: ' ' :: stripped (t :: ts)) =
      ('-' :: ' ' :: t) :: ts.map (fun u => ' ' :: ' ' :: '-' :: ' ' :: u) := by
  cases ts with
  | nil =>
    rw [show stripped [t] = t from rfl]
    rw [pySplitNL_no_nl _ ?hnl]
    · rfl
    case hnl =>
      intro c hc
      rcases List.mem_cons.mp hc with h1 | h1
      · subst h1; decide
      · rcases List.mem_cons.mp h1 with h2 | h2
        · subst h2; decide
        · exact clean_no_nl hct c h2
  | cons u us =>
    rw [show stripped (t :: u :: us) =
        t ++ '\n' :: (' ' :: ' ' :: '-' :: ' ' :: stripped (u :: us)) from rfl]
    have e1 : '-' :: ' ' ::
        (t ++ '\n' :: (' ' :: ' ' :: '-' :: ' ' :: stripped (u :: us))) =
        ('-' :: ' ' :: t) ++ '\n' :: (' ' :: ' ' :: '-' :: ' ' :: stripped (u :: us)) := by
      simp
    rw [e1]
    rw [pySplitNL_append _ ?hnl2 _]
    · rw [pySplitNL_stripped_tail (u :: us) hcl (by simp)]
    case hnl2 =>
      intro c hc
      rcases List.mem_cons.mp hc with h1 | h1
      · subst h1; decide
      · rcases List.mem_cons.mp h1 with h2 | h2
        · subst h2; decide
        · exact clean_no_nl hct c h2

/-- Parsing one serialized piece recovers the tag: strip, remove the `- `
marker via `strip('-')`, strip again. -/
theorem piece_parse (t : Str) (hct : cleanTag t) :
    pyStrip (stripDashes (pyStrip ('-' :: ' ' :: t))) = t ∧
    pyStrip (stripDashes (pyStrip (' ' :: ' ' :: '-' :: ' ' :: t))) = t ∧
    (pyStrip ('-' :: ' ' :: t)).isEmpty = false ∧
    (pyStrip (' ' :: ' ' :: '-' :: ' ' :: t)).isEmpty = false := by
  obtain ⟨c0, t0, hct0⟩ : ∃ c0 t0, t = c0 :: t0 := by
    cases t with
    | nil => exact absurd rfl hct.1
    | cons a b => exact ⟨a, b, rfl⟩
  obtain ⟨d, rev, hdr, hda, hdd⟩ := clean_reverse t hct
  have hc0 : allowedChar c0 = true := hct.2.1 c0 (by rw [hct0]; simp)
  -- pyStrip ('-' :: ' ' :: t) = '-' :: ' ' :: t
  have hs1 : pyStrip ('-' :: ' ' :: t) = '-' :: ' ' :: t := by
    unfold pyStrip
    rw [List.dropWhile_cons, if_neg (by decide)]
    exact dropTrailingWS_stable (by rw [show ('-' :: ' ' :: t).reverse =
      t.reverse ++ [' ', '-'] from by simp, hdr]; rfl) (allowed_not_ws hda)
  -- pyStrip ('  - ' ++ t) = '-' :: ' ' :: t
  have hs2 : pyStrip (' ' :: ' ' :: '-' :: ' ' :: t) = '-' :: ' ' :: t := by
    unfold pyStrip
    rw [List.dropWhile_cons, if_pos (by decide), List.dropWhile_cons, if_pos (by decide),
        List.dropWhile_cons, if_neg (by decide)]
    exact dropTrailingWS_stable (by rw [show ('-' :: ' ' :: t).reverse =
      t.reverse ++ [' ', '-'] from by simp, hdr]; rfl) (allowed_not_ws hda)
  -- stripDashes ('-' :: ' ' :: t) = ' ' :: t
  have hsd : stripDashes ('-' :: ' ' :: t) = ' ' :: t := by
    unfold stripDashes
    rw [List.dropWhile_cons, if_pos (by decide), List.dropWhile_cons, if_neg (by decide)]
    rw [show (' ' :: t).reverse = t.reverse ++ [' '] from by simp, hdr]
    rw [show (d :: rev) ++ [' '] = d :: (rev ++ [' ']) from by simp]
    rw [List.dropWhile_cons, if_neg (by simp [beq_iff_eq, hdd])]
    rw [show d :: (rev ++ [' ']) = (d :: rev) ++ [' '] from by simp, ← hdr]
    simp
  -- pyStrip (' ' :: t) = t
  have hs3 : pyStrip (' ' :: t) = t := by
    unfold pyStrip
    rw [List.dropWhile_cons, if_pos (by decide)]
    rw [hct0, List.dropWhile_cons, if_neg (by simp [allowed_not_ws hc0]), ← hct0]
    exact dropTrailingWS_stable hdr (allowed_not_ws hda)
  refine ⟨?_, ?_, ?_, ?_⟩
  · rw [hs1, hsd, hs3]
  · rw [hs2, hsd, hs3]
  · rw [hs1]; rfl
  · rw [hs2]; rfl

/-- The parser of the populated branch recovers exactly the serialized
tag list. -/
theorem parseTags_canonical (ts : List Str) (hcl : ∀ t ∈ ts, cleanTag t)
    (hne : ts ≠ []) : parseTags (itemLines ts) = ts := by
  obtain ⟨t, ts', rfl⟩ : ∃ t ts', ts = t :: ts' := by
    cases ts with
    | nil => exact absurd rfl hne
    | cons a b => exact ⟨a, b, rfl⟩
  have hct : cleanTag t := hcl t (by simp)
  have hcl' : ∀ u ∈ ts', cleanTag u := fun u hu => hcl u (by simp [hu])
  unfold parseTags
  rw [pyStrip_itemLines (t :: ts') hcl t ts' rfl]
  rw [pySplitNL_stripped t ts' hct hcl']
  have hfil : (('-' :: ' ' :: t) ::
      ts'.map (fun u => ' ' :: ' ' :: '-' :: ' ' :: u)).filter
        (fun p => !(pyStrip p).isEmpty) =
      ('-' :: ' ' :: t) :: ts'.map (fun u => ' ' :: ' ' :: '-' :: ' ' :: u) := by
    rw [List.filter_eq_self]
    intro a ha
    rcases List.mem_cons.mp ha with h1 | h1
    · subst h1
      rw [(piece_parse t hct).2.2.1]
      rfl
    · obtain ⟨u, hu, rfl⟩ := List.mem_map.mp h1
      rw [(piece_parse u (hcl' u hu)).2.2.2]
      rfl
  rw [hfil]
  rw [List.map_cons, (piece_parse t hct).1, List.map_map]
  congr 1
  calc ts'.map ((fun p => pyStrip (stripDashes (pyStrip p))) ∘
        (fun u => ' ' :: ' ' :: '-' :: ' ' :: u)) =
      ts'.map id := by
        apply List.map_congr_left
        intro u hu
        exact (piece_parse u (hcl' u hu)).2.1
    _ = ts' := List.map_id ts'

/-! ### The search and the substitution on the canonical header -/

theorem tagsKey_not_pre_nl (X : Str) : tagsKey.isPrefixOf ('\n' :: X) = false := rfl

theorem alt1_nl (X : Str) : alt1 ('\n' :: X) = none := by
  unfold alt1
  rw [if_neg (by rw [tagsKey_not_pre_nl]; simp)]

theorem alt2_nl (X : Str) : alt2 ('\n' :: X) = none := by
  unfold alt2
  rw [if_neg (by rw [tagsKey_not_pre_nl]; simp)]

theorem tagsSearch_cons (c : Char) (rest : Str) :
    tagsSearch (c :: rest) =
      match alt1 (c :: rest) with
      | some m => some m
      | none =>
        match alt2 (c :: rest) with
        | some m => some m
        | none => tagsSearch rest := rfl

/-- The first regex alternative fails on the canonical section: the first
non-whitespace character after `tags:` is `-`, not `[`. -/
theorem alt1_canonical_fails (t : Str) (ts' : List Str) :
    alt1 (tagsKey ++ '\n' :: itemLines (t :: ts')) = none := by
  unfold alt1
  rw [if_pos (isPre_iff.mpr (List.prefix_append tagsKey _))]
  simp only [show List.drop 5 (tagsKey ++ '\n' :: itemLines (t :: ts')) =
      '\n' :: itemLines (t :: ts') from rfl]
  have hws : wsSplit ('\n' :: itemLines (t :: ts')) =
      (['\n', ' ', ' '], '-' :: ' ' :: (t ++ '\n' :: itemLines ts')) := by
    rw [itemLines_cons]
    rw [wsSplit_cons_ws (by decide), wsSplit_cons_ws (by decide),
        wsSplit_cons_ws (by decide), wsSplit_cons_neg (by decide)]
  rw [hws]
  rfl

/-- The tags regex on the canonical header: the populated alternative
matches at position 1, capturing exactly the item lines. -/
theorem tagsSearch_canonical (ts : List Str) (hcl : ∀ t ∈ ts, cleanTag t)
    (hne : ts ≠ []) :
    tagsSearch ('\n' :: (tagsKey ++ '\n' :: itemLines ts)) =
      some ⟨tagsKey ++ '\n' :: itemLines ts, some (itemLines ts), []⟩ := by
  obtain ⟨t, ts', rfl⟩ : ∃ t ts', ts = t :: ts' := by
    cases ts with
    | nil => exact absurd rfl hne
    | cons a b => exact ⟨a, b, rfl⟩
  rw [tagsSearch_cons, alt1_nl, alt2_nl]
  simp only
  rw [show tagsKey ++ '\n' :: itemLines (t :: ts') =
      't' :: ('a' :: 'g' :: 's' :: ':' :: '\n' :: itemLines (t :: ts')) from rfl]
  rw [tagsSearch_cons]
  rw [show ('t' : Char) :: ('a' :: 'g' :: 's' :: ':' :: '\n' :: itemLines (t :: ts')) =
      tagsKey ++ '\n' :: itemLines (t :: ts') from rfl]
  rw [alt1_canonical_fails t ts']
  simp only
  rw [alt2_canonical (t :: ts') hcl (by simp)]

theorem subTags_cons_none {c : Char} {rest : Str} (h : alt2 (c :: rest) = none)
    (repl : Str) : subTags (c :: rest) repl = c :: subTags rest repl := by
  rw [subTags_eq]
  simp only [h]

theorem subTags_cons_some {c : Char} {rest : Str} {m : TagsMatch}
    (h : alt2 (c :: rest) = some m) (repl : Str) :
    subTags (c :: rest) repl = repl ++ subTags m.rest repl := by
  rw [subTags_eq]
  simp only [h]

/-- `re.sub` on the canonical header with the canonical replacement is the
identity: the single match is replaced by itself. -/
theorem subTags_canonical (ts : List Str) (hcl : ∀ t ∈ ts, cleanTag t)
    (hne : ts ≠ []) :
    subTags ('\n' :: (tagsKey ++ '\n' :: itemLines ts))
        (tagsKey ++ '\n' :: itemLines ts) =
      '\n' :: (tagsKey ++ '\n' :: itemLines ts) := by
  obtain ⟨t, ts', rfl⟩ : ∃ t ts', ts = t :: ts' := by
    cases ts with
    | nil => exact absurd rfl hne
    | cons a b => exact ⟨a, b, rfl⟩
  rw [subTags_cons_none (alt2_nl _)]
  rw [show tagsKey ++ '\n' :: itemLines (t :: ts') =
      't' :: ('a' :: 'g' :: 's' :: ':' :: '\n' :: itemLines (t :: ts')) from rfl]
  rw [subTags_cons_some (show alt2 ('t' :: ('a' :: 'g' :: 's' :: ':' :: '\n' ::
      itemLines (t :: ts'))) = some ⟨tagsKey ++ '\n' :: itemLines (t :: ts'),
      some (itemLines (t :: ts')), []⟩ from alt2_canonical (t :: ts') hcl (by simp))]
  simp [subTags]
  rfl

/-- The canonical `group(0)` contains no `[`, hence no `"[]"`. -/
theorem hasSub_brackets_false {s : Str} (h : '[' ∉ s) :
    hasSub ['[', ']'] s = false := by
  induction s with
  | nil => rfl
  | cons c rest ih =>
    rw [hasSub_cons]
    have hc : c ≠ '[' := by
      intro hx; subst hx; exact h (by simp)
    have hpre : (['[', ']'] : Str).isPrefixOf (c :: rest) = false := by
      show (('[' == c) && _) = false
      rw [beq_eq_false_iff_ne.mpr (Ne.symm hc), Bool.false_and]
    rw [hpre, ih (fun hx => h (by simp [hx]))]
    rfl

theorem lb_not_mem_itemLines (ts : List Str) (hcl : ∀ t ∈ ts, cleanTag t) :
    '[' ∉ itemLines ts := by
  induction ts with
  | nil => simp [itemLines, concatAll]
  | cons t ts' ih =>
    rw [itemLines_cons]
    intro hx
    simp only [List.mem_cons, List.mem_append] at hx
    rcases hx with h1 | h1 | h1 | h1 | h1 | h1 | h1
    · exact absurd h1 (by decide)
    · exact absurd h1 (by decide)
    · exact absurd h1 (by decide)
    · exact absurd h1 (by decide)
    · exact absurd rfl (allowed_ne_lb ((hcl t (by simp)).2.1 '[' h1))
    · exact absurd h1 (by decide)
    · exact ih (fun u hu => hcl u (by simp [hu])) h1

/-! ### C1: idempotence -/

theorem sortedDedup_idem (l : List Str) : sortedDedup (sortedDedup l) = sortedDedup l :=
  sortedDedup_eq_self (sortedDedup_sorted l) (sortedDedup_nodup l)

/-- C1, counterexample: the incoming tag `"weird-"` (the normalization of
the name `"weird "`, line 136) ends in a hyphen.  The first run writes it;
the second run's parser strips the trailing hyphen (`strip('-')`,
line 199), re-merges `"weird-"` and now also keeps the mangled `"weird"`:
the second application changes the document again. -/
theorem pipeline_not_idempotent_counterexample :
    applyPipeline (str "x") [str "weird-"] = str "---\ntags:\n  - weird-\n---\nx" ∧
    applyPipeline (applyPipeline (str "x") [str "weird-"]) [str "weird-"] =
      str "---\ntags:\n  - weird\n  - weird-\n---\nx" ∧
    applyPipeline (applyPipeline (str "x") [str "weird-"]) [str "weird-"] ≠
      applyPipeline (str "x") [str "weird-"] := by
  refine ⟨by decide, by decide, by decide⟩

/-- C1, amended: the merge laws hold unconditionally, and the full
locate→parse→merge→rewrite pipeline is idempotent on every document
without a frontmatter match when the incoming tag list is non-empty,
duplicate-free, and consists of clean tags (non-empty, over lowercase
letters/digits/isolated hyphens, not ending in `-`).  Tags ending in a
hyphen (produced by normalizing names with trailing spaces) and duplicated
incoming lists break idempotence (see the counterexample). -/
theorem pipeline_idempotent (D : Str) (tags : List Str)
    (hD : locate D = none) (hne : tags ≠ []) (hnd : tags.Nodup)
    (hcl : ∀ t ∈ tags, cleanTag t) :
    applyPipeline (applyPipeline D tags) tags = applyPipeline D tags ∧
    (∀ E I : List Str, mergeTags (mergeTags E I) [] = mergeTags E I) ∧
    (∀ E I : List Str, mergeTags E I = mergeTags E (I ++ I)) := by
  have hs_ne : pySorted tags ≠ [] := by
    intro hx
    have hlen := (List.perm_insertionSort leTag tags).length_eq
    rw [show List.insertionSort leTag tags = pySorted tags from rfl, hx] at hlen
    exact hne (List.length_eq_zero.mp hlen.symm)
  have hs_cl : ∀ t ∈ pySorted tags, cleanTag t := fun t ht =>
    hcl t (mem_pySorted.mp ht)
  have key1 : updateFrontmatterTags D tags =
      some (dash3 ++ ('\n' :: (tagsKey ++ '\n' :: itemLines (pySorted tags))) ++
        (dash3 ++ '\n' :: D)) := by
    simp only [updateFrontmatterTags, hD]
    congr 1
    rw [← joinTags_itemLines _ hs_ne]
    simp
  have hloc : locate (dash3 ++ ('\n' :: (tagsKey ++ '\n' :: itemLines (pySorted tags))) ++
      (dash3 ++ '\n' :: D)) =
      some ('\n' :: (tagsKey ++ '\n' :: itemLines (pySorted tags)), '\n' :: D) := by
    apply (locate_iff_decomp _ _ _).mpr
    exact ⟨rfl, hasSub3_fm (pySorted tags) hs_cl⟩
  have hbr : hasSub ['[', ']'] (tagsKey ++ '\n' :: itemLines (pySorted tags)) = false := by
    apply hasSub_brackets_false
    intro hx
    rcases List.mem_append.mp hx with h1 | h1
    · exact absurd h1 (by decide)
    · rcases List.mem_cons.mp h1 with h2 | h2
      · exact absurd h2 (by decide)
      · exact lb_not_mem_itemLines (pySorted tags) hs_cl h2
  have hmerged : mergeTags (pySorted tags) tags = pySorted tags := by
    unfold mergeTags
    have h1 : sortedDedup (pySorted tags ++ tags) = sortedDedup tags := by
      apply sortedDedup_ext
      intro t
      constructor
      · intro ht
        rcases List.mem_append.mp ht with h2 | h2
        · exact mem_pySorted.mp h2
        · exact h2
      · intro ht
        exact List.mem_append.mpr (Or.inr ht)
    rw [h1, ← pySorted_eq_sortedDedup hnd]
  have key2 : updateFrontmatterTags
      (dash3 ++ ('\n' :: (tagsKey ++ '\n' :: itemLines (pySorted tags))) ++
        (dash3 ++ '\n' :: D)) tags =
      some (dash3 ++ ('\n' :: (tagsKey ++ '\n' :: itemLines (pySorted tags))) ++
        (dash3 ++ '\n' :: D)) := by
    simp only [updateFrontmatterTags, hloc,
      tagsSearch_canonical (pySorted tags) hs_cl hs_ne]
    rw [if_neg (by simp [hbr])]
    rw [parseTags_canonical (pySorted tags) hs_cl hs_ne]
    rw [hmerged]
    rw [joinTags_itemLines (pySorted tags) hs_ne]
    rw [subTags_canonical (pySorted tags) hs_cl hs_ne]
    rw [strReplace_self]
  refine ⟨?_, ?_, ?_⟩
  · unfold applyPipeline
    rw [key1]
    simp only [Option.getD_some]
    rw [key2]
    rfl
  · intro E I
    show sortedDedup (sortedDedup (E ++ I) ++ []) = sortedDedup (E ++ I)
    rw [List.append_nil]
    exact sortedDedup_idem _
  · intro E I
    apply sortedDedup_ext
    intro t
    constructor
    · intro ht
      rcases List.mem_append.mp ht with h | h
      · exact List.mem_append.mpr (Or.inl h)
      · exact List.mem_append.mpr (Or.inr (List.mem_append.mpr (Or.inl h)))
    · intro ht
      rcases List.mem_append.mp ht with h | h
      · exact List.mem_append.mpr (Or.inl h)
      · rcases List.mem_append.mp h with h2 | h2
        · exact List.mem_append.mpr (Or.inr h2)
        · exact List.mem_append.mpr (Or.inr h2)

theorem pipeline_idempotent_witness :
    locate (str "x") = none ∧ ([str "dp"] : List Str) ≠ [] ∧
    ([str "dp"] : List Str).Nodup ∧ (∀ t ∈ [str "dp"], cleanTag t) ∧
    (applyPipeline (applyPipeline (str "x") [str "dp"]) [str "dp"] =
        applyPipeline (str "x") [str "dp"] ∧
      (∀ E I : List Str, mergeTags (mergeTags E I) [] = mergeTags E I) ∧
      (∀ E I : List Str, mergeTags E I = mergeTags E (I ++ I))) :=
  ⟨by decide, by decide, by decide, by decide,
   pipeline_idempotent (str "x") [str "dp"] (by decide) (by decide) (by decide)
     (by decide)⟩

end TagGen
